import Mathlib

/-!
Verification development for the signalk-seamap-plugin tile pipeline.

The JavaScript sources are shallowly embedded: pure computations become Lean
functions over `Nat`, `Int` and `ℚ` (JS numbers are modelled as exact rationals,
`NaN` as `none` in an `Option`), stateful code becomes explicit state passing or
small step functions over state records, and fallible operations return `Option`.
File names and line numbers in doc comments refer to the repository sources.
-/

namespace Seamap

/-! ## Derived-tile regeneration decisions (contours.js, bathymetry.js) -/

/-- JS comparison `a > b` where `a` may be `undefined`: in JavaScript
`undefined > n` coerces to `NaN > n`, which is `false`. -/
def jsGtUndef : Option Nat → Nat → Bool
  | none, _ => false
  | some a, b => decide (b < a)

/-- Regeneration decision of `Contours.deliverContourTile` (contours.js 341-358).
The code runs `let source = this.tiles.getTile(name, zNum, xNum, yNum);` WITHOUT
`await`, so `source` is a pending Promise object and `source?.timestamp` evaluates
to `undefined` no matter what the source tile's real timestamp is.  The decision
`!tile || source?.timestamp > tile.timestamp` therefore ignores the real source
timestamp, which is why the second argument is unused here. -/
def contoursRegenerates (cachedTs : Option Nat) (_sourceTs : Option Nat) : Bool :=
  match cachedTs with
  | none => true
  | some t => jsGtUndef none t

/-- Regeneration decision of `Bathymetry.getTile` (bathymetry.js 228-262), which
DOES await the source tile (`let sourceTile = await this.tiles.getTile(...).catch(() => null)`)
and then tests `!cachedTile || (sourceTile?.timestamp > cachedTile.timestamp)`. -/
def bathymetryRegenerates (cachedTs : Option Nat) (sourceTs : Option Nat) : Bool :=
  match cachedTs with
  | none => true
  | some t => jsGtUndef sourceTs t

/-! ## Sector download orchestrator: cancellation (pmtiles.js) -/

/-- State of one running sector download, as seen by the closure created in
`Pmtiles.processNextTile` (pmtiles.js 252-332) together with the aliasing
between `this.state` and the captured `const state = this.state`.

* `capturedActive`: the `.active` field of the state object captured by the
  `downloadNextSource` closure;
* `aliased`: whether `this.state` still refers to that captured object
  (`Pmtiles.cancel` replaces `this.state` with a fresh object, so after a cancel
  the captured object is no longer reachable through `this.state`);
* `sourcesLeft`: entries remaining in the local `sources` array;
* `failedFlag`: the closure-local `failed` flag;
* `liveProc`: whether an extraction subprocess is currently running;
* `procKilled`: whether a SIGTERM has been sent to that subprocess;
* `tmpPresent`: whether the dot-prefixed in-progress directory exists;
* `spawned`: ghost counter of extraction subprocesses spawned so far;
* `committed`: whether the final directory was produced by the rename. -/
structure DlState where
  capturedActive : Bool
  aliased : Bool
  sourcesLeft : Nat
  failedFlag : Bool
  liveProc : Bool
  procKilled : Bool
  tmpPresent : Bool
  spawned : Nat
  committed : Bool
deriving Repr, DecidableEq

/-- One call of the `downloadNextSource` closure (pmtiles.js 279-329):
if the captured state object is no longer active, remove the in-progress
directory and stop; if the local `sources` array is exhausted, either remove the
in-progress directory (some source failed) or commit it by rename; otherwise
shift the next source and spawn an extraction subprocess for it. -/
def downloadNextSource (st : DlState) : DlState :=
  if st.capturedActive = false then
    { st with tmpPresent := false }
  else if st.sourcesLeft = 0 then
    if st.failedFlag then
      { st with tmpPresent := false }
    else
      { st with tmpPresent := false, committed := true }
  else
    { st with sourcesLeft := st.sourcesLeft - 1, liveProc := true, spawned := st.spawned + 1 }

/-- `Pmtiles.cancel` (pmtiles.js 179-189): send SIGTERM to the live subprocess if
any, then execute `this.state = this.emtpyState()`.  The assignment REPLACES the
`this.state` reference with a fresh idle object; the state object captured by the
running `downloadNextSource` closure is not mutated, so its `.active` field keeps
the value `true`. -/
def cancelStep (st : DlState) : DlState :=
  { st with procKilled := st.liveProc, aliased := false }

/-- The `close` handler of the extraction subprocess (pmtiles.js 318-322):
clear `state.process`, set `failed` when the exit code is non-zero (a SIGTERM
termination reports a non-zero close), then call `downloadNextSource`. -/
def procCloseStep (exitOk : Bool) (st : DlState) : DlState :=
  downloadNextSource { st with liveProc := false, failedFlag := st.failedFlag || !exitOk }

/-! ## Bathymetry isoband level list (bathymetry.js 95-107) -/

/-- JS `array.sort((a, b) => b - a)` on numbers: sort in descending order. -/
def sortDescJs (l : List ℚ) : List ℚ :=
  l.mergeSort (fun a b => decide (b ≤ a))

/-- `Bathymetry.getBathymetryDepthLevels` (bathymetry.js 77-90): the configured
depth levels when present, else the default `[2, 5, 10, 20, 50]`.  The
comma-separated-string parsing (`split`, `parseFloat`, `filter !isNaN`) is
elided; the argument is the already-parsed numeric list. -/
def getBathymetryDepthLevels (configured : Option (List ℚ)) : List ℚ :=
  configured.getD [2, 5, 10, 20, 50]

/-- Level construction of `Bathymetry.generateBathymetryTile` (bathymetry.js 95-107):
`elevations = depthLevels.map(depth => -Math.abs(depth))` and
`extendedElevations = [10000, 0, ...elevations.sort((a, b) => b - a)]`,
which is the level list passed to the isoband marching-squares generator. -/
def bathymetryMarchingLevels (configured : Option (List ℚ)) : List ℚ :=
  let depthLevels := getBathymetryDepthLevels configured
  let elevations := depthLevels.map (fun depth => -|depth|)
  10000 :: 0 :: sortDescJs elevations

/-- Modelled from the spec: the marching-squares band mode (vendored
`maplibre-contour/isobands.js`, which is not under src/) emits one polygon range
per adjacent pair of the level list, the pair being (upper bound, lower bound)
for a descending level list. -/
def bandRangesSpec (levels : List ℚ) : List (ℚ × ℚ) :=
  levels.zip levels.tail

/-! ## Request coalescing (tiles.js 249-279)

`Tiles.getTileData` keeps `pendingTiles : Map key Promise`.  On a request it
checks `pendingTiles.has(tileKey)` and returns the stored promise when present;
otherwise it invokes `_fetchTileData` and stores the resulting promise, whose
`.finally` handler deletes the map entry.  Node runs each synchronous block to
completion, so the has-check, the start of the underlying fetch and the
`pendingTiles.set` cannot be interleaved with another request: they form one
atomic step.  Events model request arrivals for one fixed key and the completion
of the underlying fetch. -/

/-- Event on one coalescing key: a new caller arrives, or the in-flight fetch
completes (the promise settles and the `.finally` deletion runs). -/
inductive CoalEvent where
  | arrive (caller : Nat)
  | complete
deriving Repr, DecidableEq

/-- Coalescer state for one key: `pending` is the map entry (identifier of the
in-flight fetch), `started` counts underlying fetches started so far, and
`results` records which fetch each caller was subscribed to. -/
structure CoalState where
  pending : Option Nat
  started : Nat
  results : List (Nat × Nat)
deriving Repr, DecidableEq

/-- One atomic step of the coalescer (tiles.js 249-279). -/
def coalStep (st : CoalState) (e : CoalEvent) : CoalState :=
  match e with
  | .arrive c =>
    match st.pending with
    | some f => { st with results := st.results ++ [(c, f)] }
    | none =>
        { pending := some st.started, started := st.started + 1,
          results := st.results ++ [(c, st.started)] }
  | .complete => { st with pending := none }

/-- Initial coalescer state: no entry in `pendingTiles`, no fetch started. -/
def coalInit : CoalState := ⟨none, 0, []⟩

/-! ## Atomic sector commit (pmtiles.js 252-332 and 131-135)

One sector download processes the per-source extractions sequentially into the
dot-prefixed in-progress directory, then either commits it by rename (all
sources succeeded) or deletes it (some source failed).  The filesystem is
abstracted to the two directories of the sector being processed: `tmp` holds
the files of `.z_x_y` (`none` when the directory is absent) and `final` those
of `z_x_y`.  Directory names are lists of characters so that the dot filter of
`Pmtiles.list` is embedded literally. -/

/-- Filesystem view of one sector: in-progress directory contents and committed
directory contents; `none` means the directory does not exist. -/
structure SectorFS where
  tmp : Option (List String)
  final : Option (List String)
deriving Repr, DecidableEq

/-- Whether a directory name begins with a dot (pmtiles.js 132:
`entry.name.startsWith('.')`). -/
def startsWithDot (n : List Char) : Bool :=
  match n with
  | [] => false
  | c :: _ => decide (c = '.')

/-- Directory entries of the sector root restricted to this sector: the
dot-prefixed in-progress directory when present, and the committed directory
when present. -/
def sectorEntries (name : List Char) (fs : SectorFS) : List (List Char) :=
  (if fs.tmp.isSome then ['.' :: name] else []) ++ (if fs.final.isSome then [name] else [])

/-- `Pmtiles.list` (pmtiles.js 131-135) reports directory entries and ignores
those whose name begins with a dot. -/
def sectorListNames (name : List Char) (fs : SectorFS) : List (List Char) :=
  (sectorEntries name fs).filter (fun n => !startsWithDot n)

/-- Successfully extracted outputs among the pending (output, exit-ok) pairs. -/
def okOuts (pending : List (String × Bool)) : List String :=
  (pending.filter (fun p => p.2)).map (fun p => p.1)

/-- The `downloadNextSource` loop (pmtiles.js 279-329) as the sequence of
filesystem states it produces.  Each successful extraction adds the source's
output file to the in-progress directory; a failed one sets the `failed` flag
and leaves the directory as is.  When the sources are exhausted: on failure the
in-progress directory is removed (`fs.rm(tmpDir)`); on success the committed
directory is first removed (`fs.rm(finalDir)`) and the in-progress directory is
then renamed onto it (`fs.rename(tmpDir, finalDir)`), the intermediate state
between the two calls being part of the trace. -/
def sectorLoop (pending : List (String × Bool)) (tmpF : List String) (failed : Bool)
    (initFinal : Option (List String)) : List SectorFS :=
  match pending with
  | [] =>
    if failed then [⟨none, initFinal⟩]
    else [⟨some tmpF, none⟩, ⟨none, some tmpF⟩]
  | (out, ok) :: rest =>
    let tmpF2 := if ok then tmpF ++ [out] else tmpF
    ⟨some tmpF2, initFinal⟩ :: sectorLoop rest tmpF2 (failed || !ok) initFinal

/-! ## Tile resolver (tiles.js 285-351, `Tiles._fetchTileData`)

The resolver is embedded as a pure function over an environment that records the
answers of every external interaction (connectivity flag, online fetch result,
cached tile file, offline archive); tile bodies are abstracted to `Nat`
identifiers.  The output records the returned value, whether an online fetch was
attempted, and which bodies were written to the filesystem cache. -/

/-- Source descriptor of `Pmtiles.SOURCES()` (pmtiles.js 12-68), restricted to
the fields the resolver consults. -/
structure TileSource where
  name : String
  url : Option String
  output : String
  minzoom : Nat
  maxzoom : Nat
deriving Repr, DecidableEq

/-- The five configured sources (pmtiles.js 12-68). -/
def SOURCES : List TileSource :=
  [⟨"seamap", some "https://fsn1.your-objectstorage.com/mtk-seamap/seamap.pmtiles",
      "seamap.pmtiles", 0, 14⟩,
   ⟨"osm", some "https://fsn1.your-objectstorage.com/mtk-seamap/osm.pmtiles",
      "osm.pmtiles", 0, 14⟩,
   ⟨"mapterhorn", some "https://download.mapterhorn.com/planet.pmtiles",
      "mapterhorn.pmtiles", 0, 10⟩,
   ⟨"gebco", some "https://fsn1.your-objectstorage.com/mtk-seamap/gebco.pmtiles",
      "gebco.pmtiles", 0, 9⟩,
   ⟨"emod", some "https://fsn1.your-objectstorage.com/mtk-seamap/emod.pmtiles",
      "emod.pmtiles", 0, 11⟩]

/-- External world as seen by one `_fetchTileData` run:
`isOnline` is the connectivity flag; `onlineFetch` the outcome of
`fetchTileFromOnline` (`none` both when it resolves to null and when it rejects,
since the catch block falls through in either case); `cached` is the cache file
(bytes, mtimeMs) from `getCachedTile`; `offlineExists` whether the sector
archive file exists, `offlineMtime` its mtimeMs, `offlineRead` the tile obtained
from it (`none` when the archive has no such tile or reading threw). -/
structure ResolverEnv where
  isOnline : Bool
  onlineFetch : Option Nat
  cached : Option (Nat × Nat)
  offlineExists : Bool
  offlineMtime : Nat
  offlineRead : Option Nat
deriving Repr, DecidableEq

/-- Observable outcome of `_fetchTileData`: the returned bytes, whether an
online fetch was attempted, and the bodies written to the tile cache. -/
structure ResolverOut where
  result : Option Nat
  onlineAttempted : Bool
  cacheWrites : List Nat
deriving Repr, DecidableEq

/-- The test `offlineTileData && (!cached || (offlineFileModTime && offlineFileModTime > cached.timestamp))`
of tiles.js 338, offline-data part factored out: given the archive mtime (when
the file exists) and the cache entry, decide whether the offline tile wins.
JS truthiness makes an mtime of exactly 0 behave like a missing one. -/
def offNewerThanCache (offM : Option Nat) (cached : Option (Nat × Nat)) : Bool :=
  match cached with
  | none => true
  | some c =>
    match offM with
    | none => false
    | some m => decide (m ≠ 0) && decide (c.2 < m)

/-- Embedding of `Tiles._fetchTileData` (tiles.js 285-351).  Strategy order as
in the code: source lookup and zoom gate, then — when the monitor reports online
and the source has a URL — the online fetch (write to cache and return on
success), then the offline archive (served when strictly newer than the cache,
and re-saved to cache when online), then the cache, then null. -/
def fetchTileData (env : ResolverEnv) (name : String) (z _x _y : Nat) : ResolverOut :=
  match SOURCES.find? (fun s => s.name == name) with
  | none => ⟨none, false, []⟩
  | some src =>
    if z < src.minzoom ∨ src.maxzoom < z then ⟨none, false, []⟩
    else
      let attempted := env.isOnline && src.url.isSome
      let onlineTile := if attempted then env.onlineFetch else none
      match onlineTile with
      | some b => ⟨some b, attempted, [b]⟩
      | none =>
        let offM : Option Nat := if env.offlineExists then some env.offlineMtime else none
        let offTile := if env.offlineExists then env.offlineRead else none
        let fromCache : ResolverOut :=
          match env.cached with
          | some c => ⟨some c.1, attempted, []⟩
          | none => ⟨none, attempted, []⟩
        match offTile with
        | some ob =>
          if env.cached.isNone || offNewerThanCache offM env.cached then
            ⟨some ob, attempted, if env.isOnline then [ob] else []⟩
          else fromCache
        | none => fromCache

/-- The fallback tier of the resolver as the amended claim words it: when no
online tile was obtained, serve the offline archive tile if one was read and it
is strictly newer than the cache (an archive mtime of exactly 0 counts as
missing, per JS truthiness), else the cached bytes, else nothing. -/
def offlineElseCacheSpec (env : ResolverEnv) : Option Nat :=
  match (if env.offlineExists then env.offlineRead else none), env.cached with
  | some ob, none => some ob
  | some ob, some c =>
      if env.offlineMtime ≠ 0 ∧ c.2 < env.offlineMtime then some ob else some c.1
  | none, some c => some c.1
  | none, none => none

/-! ## LRU handle pool (tiles.js 27-63, `PMTilesCache`)

`PMTilesCache.get(filePath)` promotes a present entry to most-recent (delete
then re-set in the insertion-ordered JS Map) and returns it; on a miss it opens
a `FileSource` (fresh file descriptor), wraps it in a `PMTiles` reader, evicts
the least-recent entry when the map already holds `maxSize` entries — closing
the evicted reader and its file descriptor before deleting the map entry — and
inserts the new pair.  Entries are `(path, handle id)` where the id stands for
the reader/descriptor pair opened for this entry; the two `closed` lists record
the `pmtiles.close()` and `source.close()` calls. -/

/-- Pool state: insertion-ordered map entries (oldest first), fresh-handle
counter, and the logs of closed readers and closed file descriptors. -/
structure PoolState where
  entries : List (String × Nat)
  nextId : Nat
  closedReaders : List Nat
  closedFds : List Nat
deriving Repr, DecidableEq

/-- Empty pool. -/
def poolInit : PoolState := ⟨[], 0, [], []⟩

/-- One `PMTilesCache.get` call (tiles.js 33-54). -/
def poolAcquire (maxSize : Nat) (st : PoolState) (p : String) : PoolState :=
  match st.entries.find? (fun e => e.1 == p) with
  | some e =>
    { st with entries := st.entries.eraseP (fun e2 => e2.1 == p) ++ [e] }
  | none =>
    let base :=
      if maxSize ≤ st.entries.length then
        match st.entries with
        | [] => st
        | old :: rest =>
          { st with
            entries := rest
            closedReaders := st.closedReaders ++ [old.2]
            closedFds := st.closedFds ++ [old.2] }
      else st
    { base with entries := base.entries ++ [(p, st.nextId)], nextId := st.nextId + 1 }

/-- Result of a whole acquire sequence against the default pool (bound 50, the
`PMTilesCache` constructor default used by `Tiles`). -/
def runPool (ops : List String) : PoolState :=
  ops.foldl (poolAcquire 50) poolInit

/-- Effect of one acquire on the key sequence of the pool (oldest first). -/
def lruKeysStep (maxSize : Nat) (keys : List String) (p : String) : List String :=
  if p ∈ keys then keys.erase p ++ [p]
  else if maxSize ≤ keys.length then keys.tail ++ [p]
  else keys ++ [p]

/-- The distinct accessed paths in order of most recent use (most recent last):
this is the specification-side reading of the most-recently-used order of an
access sequence. -/
def mruList (accesses : List String) : List String :=
  accesses.foldl (fun r p => r.erase p ++ [p]) []

/-- Last `n` elements of a list. -/
def takeLast {α : Type} (n : Nat) (l : List α) : List α :=
  l.drop (l.length - n)

/-! ## Height tiles and derived-tile neighbor composition (contours.js)

The claims concern the neighbor assembly of `Contours.loadHeightTileWithNeighbors`
(contours.js 129-181, first revision) and `Soundings.loadHeightTileWithNeighbors`
(contours.js 985-1071, third revision), each embedded up to its final
`HeightTile.combineNeighbors` / `split` call — those live in the vendored
`maplibre-contour/height_tile.js`, which is not under src/.  The embedded
functions return the assembled list of nine neighbor tiles, or `none` exactly
when the code returns `null`. -/

/-- Modelled from the spec: a height tile is a rectangular grid of elevations in
metres with `NaN` for unknown; samples are `Option ℚ` with `none` as `NaN`. -/
structure HeightTile where
  width : Nat
  height : Nat
  data : List (Option ℚ)
deriving Repr, DecidableEq

/-- Constant-filled tile: `HeightTile.fromRawDem` over
`new Float32Array(w*h).fill(v)`; filling with `none` models `fill(NaN)`. -/
def fillTile (w h : Nat) (v : Option ℚ) : HeightTile :=
  ⟨w, h, List.replicate (w * h) v⟩

/-- Scalar sample `get(x, y)` of a materialized height tile (row-major). -/
def HeightTile.get (t : HeightTile) (x y : Nat) : Option ℚ :=
  t.data.getD (y * t.width + x) none

/-- The nine (dy, dx) offsets of the 3×3 neighborhood in the iteration order of
the code (outer loop over y, inner over x); the center is index 4. -/
def neighborOffsets : List (Int × Int) :=
  [(-1, -1), (-1, 0), (-1, 1), (0, -1), (0, 0), (0, 1), (1, -1), (1, 0), (1, 1)]

/-- Date-line wrap of an X index: `(i + max) % max` (contours.js 146, 1029). -/
def wrapX (i : Int) (max : Nat) : Nat :=
  ((i + (max : Int)) % (max : Int)).toNat

/-- One neighbor fetch of `Contours.loadHeightTileWithNeighbors`
(contours.js 139-152): a Y index outside `[0, 2^z)` yields no tile (Y does not
wrap), the X index is wrapped modulo `2^z`, and otherwise `loadDemTile` (the
`dem` oracle, which internally overzooms and splits) is consulted. -/
def contoursNeighborAt (dem : Nat → Nat → Nat → Option HeightTile)
    (z x y : Nat) (dx dy : Int) : Option HeightTile :=
  let mx : Int := ((2 ^ z : Nat) : Int)
  let iy : Int := (y : Int) + dy
  let ix : Int := (x : Int) + dx
  if iy < 0 ∨ mx ≤ iy then none
  else dem z (wrapX ix (2 ^ z)) iy.toNat

/-- `Contours.loadHeightTileWithNeighbors` (contours.js 129-181) up to the
`combineNeighbors` call: fetch the nine neighbors, return `null` when the
center is missing, and replace every missing neighbor by an all-ZERO tile of
the center's dimensions (`new Float32Array(...).fill(0)`, contours.js 169-173). -/
def contoursLoadNeighbors (dem : Nat → Nat → Nat → Option HeightTile)
    (z x y : Nat) : Option (List HeightTile) :=
  let raw := neighborOffsets.map (fun o => contoursNeighborAt dem z x y o.2 o.1)
  match raw.get? 4 with
  | some (some c) =>
    some (raw.map (fun t => t.getD (fillTile c.width c.height (some 0))))
  | _ => none

/-- `Soundings.loadHeightTileWithNeighbors` (contours.js 985-1071) up to the
`combineNeighbors` / `split` calls: the neighborhood is fetched at
`fetchZoom = min(z - overzoom, maxzoom)`; neighbors not needed for the
requested quadrant are skipped; the X index wraps modulo `2^fetchZoom`; a Y
index outside `[0, 2^fetchZoom)` yields no tile; the center missing returns
`null`; and every missing neighbor is replaced by an all-NaN tile of the
center's dimensions (`new Float32Array(...).fill(NaN)`, contours.js 1052-1059). -/
def soundingsNeighborAt (terrain : Nat → Nat → Nat → Option HeightTile)
    (maxzoom z x y overzoom : Nat) (dx dy : Int) : Option HeightTile :=
  let fetchZoom := min (z - overzoom) maxzoom
  let scale := 2 ^ (z - fetchZoom)
  let fetchX := x / scale
  let fetchY := y / scale
  let subX := x % scale
  let subY := y % scale
  let mx : Int := ((2 ^ fetchZoom : Nat) : Int)
  if dx = -1 ∧ subX ≠ 0 then none
  else if dx = 1 ∧ subX ≠ scale - 1 then none
  else if dy = -1 ∧ subY ≠ 0 then none
  else if dy = 1 ∧ subY ≠ scale - 1 then none
  else
    let tileY : Int := (fetchY : Int) + dy
    if tileY < 0 ∨ mx ≤ tileY then none
    else terrain fetchZoom (wrapX ((fetchX : Int) + dx) (2 ^ fetchZoom)) tileY.toNat

/-- The per-neighbor loop body of `Soundings.loadHeightTileWithNeighbors`
(`soundingsNeighborAt`) assembled over the 3×3 neighborhood, with center check
and NaN replacement. -/
def soundingsLoadNeighbors (terrain : Nat → Nat → Nat → Option HeightTile)
    (maxzoom z x y overzoom : Nat) : Option (List HeightTile) :=
  let raw := neighborOffsets.map
    (fun o => soundingsNeighborAt terrain maxzoom z x y overzoom o.2 o.1)
  match raw.get? 4 with
  | some (some c) =>
    some (raw.map (fun t => t.getD (fillTile c.width c.height none)))
  | _ => none

/-- The contours neighbor list as the amended claim words it: present exactly
when the center DEM tile is, with the k-th entry being the fetched tile at the
X-wrapped coordinate when the Y index is inside `[0, 2^z)` and the fetch
succeeds, and an all-zero tile of the center's dimensions otherwise. -/
def contoursNeighborsSpec (dem : Nat → Nat → Nat → Option HeightTile)
    (z x y : Nat) : Option (List HeightTile) :=
  match dem z x y with
  | none => none
  | some c =>
    some (neighborOffsets.map (fun o =>
      if 0 ≤ (y : Int) + o.1 ∧ (y : Int) + o.1 < ((2 ^ z : Nat) : Int) then
        (dem z (wrapX ((x : Int) + o.2) (2 ^ z)) ((y : Int) + o.1).toNat).getD
          (fillTile c.width c.height (some 0))
      else fillTile c.width c.height (some 0)))

/-- The soundings neighbor list as the amended claim words it: present exactly
when the center terrain tile at `(fetchZoom, fetchX, fetchY)` is, with skipped,
out-of-range and missing neighbors all replaced by all-NaN tiles of the
center's dimensions. -/
def soundingsNeighborsSpec (terrain : Nat → Nat → Nat → Option HeightTile)
    (maxzoom z x y overzoom : Nat) : Option (List HeightTile) :=
  let fetchZoom := min (z - overzoom) maxzoom
  let scale := 2 ^ (z - fetchZoom)
  let fetchX := x / scale
  let fetchY := y / scale
  let subX := x % scale
  let subY := y % scale
  match terrain fetchZoom fetchX fetchY with
  | none => none
  | some c =>
    some (neighborOffsets.map (fun o =>
      if (o.2 = -1 ∧ subX ≠ 0) ∨ (o.2 = 1 ∧ subX ≠ scale - 1)
          ∨ (o.1 = -1 ∧ subY ≠ 0) ∨ (o.1 = 1 ∧ subY ≠ scale - 1) then
        fillTile c.width c.height none
      else if 0 ≤ (fetchY : Int) + o.1
          ∧ (fetchY : Int) + o.1 < ((2 ^ fetchZoom : Nat) : Int) then
        (terrain fetchZoom (wrapX ((fetchX : Int) + o.2) (2 ^ fetchZoom))
            ((fetchY : Int) + o.1).toNat).getD (fillTile c.width c.height none)
      else fillTile c.width c.height none))

/-! ## Soundings generator (contours.js 879-922 and 1076-1152)

JS numbers are modelled as exact rationals: every quantity the jittered grid
computes (LCG units, spacings, jitter sums) is a dyadic rational with far fewer
than 53 significand bits, so double-precision evaluation of these expressions
is exact and the rational model coincides with the JS values. -/

/-- The 32-bit LCG step of `seededRandom` (contours.js 879-885):
`state = (state * 1664525 + 1013904223) % 4294967296`. -/
def lcgNext (s : Nat) : Nat :=
  (s * 1664525 + 1013904223) % 4294967296

/-- The unit value a `seededRandom` call returns: `state / 4294967296`. -/
def lcgUnit (s : Nat) : ℚ :=
  (s : ℚ) / 4294967296

/-- The seed of `generateJitteredGrid` (contours.js 906):
`seed = tileZ * 1000000 + tileX * 1000 + tileY`. -/
def soundingsSeed (tileZ tileX tileY : Nat) : Nat :=
  tileZ * 1000000 + tileX * 1000 + tileY

/-- `generateJitteredGrid` (contours.js 899-922): iterate `i = 0..nx`,
`j = 0..ny`, drawing two LCG values per cell (`dx` then `dy`), keeping the
jittered point when it falls strictly inside the extent.  The LCG state is
threaded through the iteration exactly as the closure captured by
`seededRandom` does. -/
def generateJitteredGrid (minx miny maxx maxy spacing : ℚ)
    (tileX tileY tileZ : Nat) : List (ℚ × ℚ) :=
  let nx : Int := ⌊(maxx - minx) / spacing⌋
  let ny : Int := ⌊(maxy - miny) / spacing⌋
  let seed := soundingsSeed tileZ tileX tileY
  let cells := (List.range (nx + 1).toNat).flatMap
    (fun i => (List.range (ny + 1).toNat).map (fun j => (i, j)))
  (cells.foldl (fun acc ij =>
      let s1 := lcgNext acc.1
      let dx := lcgUnit s1 * spacing / 2
      let s2 := lcgNext s1
      let dy := lcgUnit s2 * spacing / 2
      let px := minx + (ij.1 : ℚ) * spacing + dx + spacing / 4
      let py := miny + (ij.2 : ℚ) * spacing + dy + spacing / 4
      (s2, if px < maxx ∧ py < maxy then acc.2 ++ [(px, py)] else acc.2))
    (seed, [])).2

/-- `Soundings.getSoundingsGridSpacing` (contours.js 1157-1166). -/
def getSoundingsGridSpacing (z : Nat) : ℚ :=
  if 15 ≤ z then 64
  else if 14 ≤ z then 96
  else if 12 ≤ z then 128
  else if 10 ≤ z then 192
  else if 8 ≤ z then 256
  else 384

/-- JS `Math.round`: round half toward positive infinity. -/
def jsRound (q : ℚ) : Int :=
  ⌊q + 1 / 2⌋

/-- A soundings point feature: position in tile-extent space, the rounded
`elevation` property and the optional `depth` property. -/
structure SoundingFeature where
  px : ℚ
  py : ℚ
  elevation : ℚ
  depth : Option ℚ
deriving Repr, DecidableEq

/-- The pure pipeline of `Soundings.generateSoundingsTile`
(contours.js 1076-1152) after the height tile is in hand: jittered grid from
the seed, raster sampling with bounds check and NaN skip, rounding of the
`elevation` and (for bathymetry sources, negative elevations) `depth`
properties to one decimal, and the final stable sort by elevation in the
configured direction. -/
def generateSoundingsFeatures (ht : HeightTile) (z x y : Nat)
    (isBathymetry sortAsc : Bool) : List SoundingFeature :=
  let extent : ℚ := 4096
  let spacingInExtent := getSoundingsGridSpacing z / 512 * extent
  let gridPoints := generateJitteredGrid 0 0 extent extent spacingInExtent x y z
  let pointFeatures := gridPoints.foldl (fun acc pq =>
    let tileX : Int := ⌊pq.1 / extent * (ht.width : ℚ)⌋
    let tileY : Int := ⌊pq.2 / extent * (ht.height : ℚ)⌋
    if 0 ≤ tileX ∧ tileX < (ht.width : Int) ∧ 0 ≤ tileY ∧ tileY < (ht.height : Int) then
      match ht.get tileX.toNat tileY.toNat with
      | none => acc
      | some elevation =>
        acc ++ [⟨pq.1, pq.2, (jsRound (elevation * 10) : ℚ) / 10,
          if isBathymetry ∧ elevation < 0 then
            some ((jsRound (|elevation| * 10) : ℚ) / 10)
          else none⟩]
    else acc) []
  if sortAsc then
    pointFeatures.mergeSort (fun a b => decide (a.elevation ≤ b.elevation))
  else
    pointFeatures.mergeSort (fun a b => decide (b.elevation ≤ a.elevation))

/-! ## Bathymetry isoband ring partition and hole assignment
(bathymetry.js 8-24 and 142-176)

The isoband generator (vendored `maplibre-contour/isobands.js`, not under src/)
returns, per range, a list of closed rings as flat coordinate arrays
`[x0, y0, x1, y1, ...]`; they are modelled as lists of points and quantified
over, since the assignment logic under test accepts any ring list. -/

/-- A ring: list of (x, y) points, first point repeated at the end. -/
abbrev Ring : Type := List (ℚ × ℚ)

/-- Shoelace accumulation of `ringSignedArea` (bathymetry.js 8-13): the loop
`for (i = 0; i < ring.length - 2; i += 2) area += ring[i]*ring[i+3] - ring[i+2]*ring[i+1]`
summed over consecutive point pairs, with no wrap-around term. -/
def shoelaceSum : List (ℚ × ℚ) → ℚ
  | (x1, y1) :: (x2, y2) :: rest => (x1 * y2 - x2 * y1) + shoelaceSum ((x2, y2) :: rest)
  | _ => 0

/-- `ringSignedArea` (bathymetry.js 8-13): half the shoelace sum. -/
def ringSignedArea (ring : Ring) : ℚ :=
  shoelaceSum ring / 2

/-- The previous-point sequence of the ray-casting loop
(`j = ring.length - 2` initially, then `j = i`): the last point followed by all
points but the last. -/
def prevPoints (ring : Ring) : List (ℚ × ℚ) :=
  match ring with
  | [] => []
  | a :: rest => (a :: rest).getLastD a :: (a :: rest).dropLast

/-- `pointInRing` (bathymetry.js 16-24): ray casting; each edge from the
previous point `(xj, yj)` to the current point `(xi, yi)` toggles `inside` when
`(yi > py) !== (yj > py) && px < (xj - xi) * (py - yi) / (yj - yi) + xi`. -/
def pointInRing (px py : ℚ) (ring : Ring) : Bool :=
  ((ring : List (ℚ × ℚ)).zip (prevPoints ring)).foldl
    (fun inside e =>
      let xi := e.1.1
      let yi := e.1.2
      let xj := e.2.1
      let yj := e.2.2
      if (decide (py < yi) != decide (py < yj))
          && decide (px < (xj - xi) * (py - yi) / (yj - yi) + xi)
      then !inside else inside)
    false

/-- `outerRings = polygons.filter(p => ringSignedArea(p) < 0)` (bathymetry.js 155). -/
def bandOuterRings (polygons : List Ring) : List Ring :=
  polygons.filter (fun p => decide (ringSignedArea p < 0))

/-- `holeRings = polygons.filter(p => ringSignedArea(p) >= 0)` (bathymetry.js 156). -/
def bandHoleRings (polygons : List Ring) : List Ring :=
  polygons.filter (fun p => decide (0 ≤ ringSignedArea p))

/-- The best-containing-outer scan of the hole-assignment loop
(bathymetry.js 160-169): walk the outer rings keeping `(bestIdx, bestArea)`
(`none` models `bestIdx = -1, bestArea = Infinity`), updating when the current
outer's absolute area is strictly below the best and the point-in-ring test on
the hole's first vertex succeeds. -/
def holeScan (hx hy : ℚ) : List Ring → Nat → Option (Nat × ℚ) → Option (Nat × ℚ)
  | [], _, best => best
  | o :: rest, i, best =>
    let area := |ringSignedArea o|
    let better := match best with
      | none => true
      | some b => decide (area < b.2)
    holeScan hx hy rest (i + 1) (if better && pointInRing hx hy o then some (i, area) else best)

/-- The `better` condition of one scan step, named for reasoning about
`holeScan`: `area < bestArea`, with `bestArea = Infinity` while `bestIdx = -1`. -/
def betterFlag (o : Ring) (best : Option (Nat × ℚ)) : Bool :=
  match best with
  | none => true
  | some b => decide (|ringSignedArea o| < b.2)

/-- Best containing outer ring for a hole, tested at the hole's first vertex
(`hx = hole[0], hy = hole[1]`, bathymetry.js 161).  An empty flat array gives
undefined coordinates, for which every JS comparison in `pointInRing` is false,
so no outer matches. -/
def holeBestIdx (hole : Ring) (outers : List Ring) : Option (Nat × ℚ) :=
  match (hole : List (ℚ × ℚ)) with
  | [] => none
  | (hx, hy) :: _ => holeScan hx hy outers 0 none

/-- In-place update of the i-th element (`features[bestIdx].push(hole)`). -/
def updateAt {α : Type} : List α → Nat → (α → α) → List α
  | [], _, _ => []
  | a :: rest, 0, f => f a :: rest
  | a :: rest, n + 1, f => a :: updateAt rest n f

/-- One iteration of the hole-assignment loop (bathymetry.js 160-172):
`if (bestIdx >= 0) features[bestIdx].push(hole)`; holes with no containing
outer ring are discarded. -/
def assignStep (outers : List Ring) (feats : List (Ring × List Ring)) (hole : Ring) :
    List (Ring × List Ring) :=
  match holeBestIdx hole outers with
  | some b => updateAt feats b.1 (fun f => (f.1, f.2 ++ [hole]))
  | none => feats

/-- The hole-assignment loop (bathymetry.js 158-172): start with one feature
`[outer]` per outer ring and push each hole onto its best containing outer. -/
def assignHoles (outers : List Ring) (holes : List Ring) : List (Ring × List Ring) :=
  holes.foldl (assignStep outers) (outers.map (fun r => (r, ([] : List Ring))))

/-- Per-range polygon features of `Bathymetry.generateTile`
(bathymetry.js 154-176): the partition into outers and holes followed by the
hole assignment; each resulting pair is emitted as one polygon feature. -/
def bandFeatures (polygons : List Ring) : List (Ring × List Ring) :=
  assignHoles (bandOuterRings polygons) (bandHoleRings polygons)

/-- States reachable while `Pmtiles.processNextTile` processes one sector:
the state before `fs.mkdir(tmpDir)`, the state with the fresh in-progress
directory, and the states of the per-source loop and of the final commit or
cleanup.  `outputs` are the per-source output file names (`source.output`),
`outcomes` the per-source exit results, `initFinal` the pre-existing committed
directory if any. -/
def sectorTrace (outputs : List String) (outcomes : List Bool)
    (initFinal : Option (List String)) : List SectorFS :=
  ⟨none, initFinal⟩ :: ⟨some [], initFinal⟩ ::
    sectorLoop (outputs.zip outcomes) [] false initFinal

end Seamap

namespace Seamap

theorem sortDescJs_perm (l : List ℚ) : (sortDescJs l).Perm l :=
  List.mergeSort_perm l _

theorem sortDescJs_sorted (l : List ℚ) : (sortDescJs l).Sorted (· ≥ ·) := by
  have h := @List.sorted_mergeSort ℚ (fun a b : ℚ => decide (b ≤ a))
    (fun a b c hab hbc => by
      simp only [decide_eq_true_eq] at hab hbc ⊢
      exact le_trans hbc hab)
    (fun a b => by
      rcases le_total a b with h | h <;> simp [h])
    l
  exact h.imp (fun hab => by simpa [ge_iff_le] using of_decide_eq_true hab)

/-- C2: for derived-tile requests the claim says the generator runs exactly when
there is no cached tile or the cached timestamp is strictly below the source
timestamp.  Evaluating the embedded decisions: with a cached tile of mtime 0 and
a source tile of mtime 1000 the contours path does NOT regenerate (the un-awaited
promise makes the timestamp comparison dead code), while the bathymetry path,
which awaits, does; the monotonic-freshness half of the claim (cached strictly
newer than source ⟹ serve cache) holds on both paths. -/
theorem c2_contours_staleness_check_dead :
    contoursRegenerates (some 0) (some 1000) = false
  ∧ bathymetryRegenerates (some 0) (some 1000) = true
  ∧ (∀ c s : Nat, bathymetryRegenerates (some c) (some s) = true ↔ c < s)
  ∧ (∀ c s : Nat, s < c →
      contoursRegenerates (some c) (some s) = false
      ∧ bathymetryRegenerates (some c) (some s) = false) := by
  refine ⟨rfl, rfl, ?_, ?_⟩
  · intro c s
    simp [bathymetryRegenerates, jsGtUndef]
  · intro c s hs
    refine ⟨rfl, ?_⟩
    simp [bathymetryRegenerates, jsGtUndef]
    omega

theorem c2_contours_staleness_check_dead_witness :
    bathymetryRegenerates (some 2) (some 5) = true :=
  (c2_contours_staleness_check_dead.2.2.1 2 5).2 (by decide)

/-- C4: after `cancel` during an active download the claim says no further
per-source extraction subprocess is spawned for the cancelled sector and the
in-progress directory is removed.  Evaluating the embedded orchestrator at a
state with a live subprocess and two sources still queued: cancel sends SIGTERM
to the live subprocess, but when that subprocess closes, `downloadNextSource`
reads `.active` from the STALE captured state object (cancel replaced
`this.state` instead of mutating it), so the dead guard is skipped and the next
extraction subprocess is spawned; the dot-prefixed directory is still present. -/
theorem c4_cancel_still_spawns :
    (cancelStep ⟨true, true, 2, false, true, false, true, 3, false⟩).procKilled = true
  ∧ (cancelStep ⟨true, true, 2, false, true, false, true, 3, false⟩).aliased = false
  ∧ (procCloseStep false (cancelStep ⟨true, true, 2, false, true, false, true, 3, false⟩)).spawned = 4
  ∧ (procCloseStep false (cancelStep ⟨true, true, 2, false, true, false, true, 3, false⟩)).liveProc = true
  ∧ (procCloseStep false (cancelStep ⟨true, true, 2, false, true, false, true, 3, false⟩)).tmpPresent = true
  ∧ (procCloseStep false (cancelStep ⟨true, true, 2, false, true, false, true, 3, false⟩)).failedFlag = true := by
  refine ⟨rfl, rfl, rfl, rfl, rfl, rfl⟩

/-- C10: the level list passed to the isoband generator is exactly `[10000, 0]`
followed by the configured depth levels negated and sorted in descending order;
consequently the first emitted band range is the land range (0 to 10000) and the
second, shallowest-water range is `[-m, 0)` where `m` is the smallest configured
depth level (in absolute value). -/
theorem c10_bathymetry_level_list : ∀ configured : Option (List ℚ),
    (bathymetryMarchingLevels configured).take 2 = [10000, 0]
  ∧ ((bathymetryMarchingLevels configured).drop 2).Perm
      ((getBathymetryDepthLevels configured).map (fun d => -|d|))
  ∧ ((bathymetryMarchingLevels configured).drop 2).Sorted (· ≥ ·)
  ∧ (bandRangesSpec (bathymetryMarchingLevels configured)).head? = some (10000, 0)
  ∧ (∀ d0 ds, getBathymetryDepthLevels configured = d0 :: ds →
      ∃ m, (bandRangesSpec (bathymetryMarchingLevels configured)).get? 1 = some (0, -m)
        ∧ m ∈ (d0 :: ds).map (fun d => |d|)
        ∧ ∀ d ∈ (d0 :: ds).map (fun d => |d|), m ≤ d) := by
  intro configured
  refine ⟨rfl, ?_, ?_, rfl, ?_⟩
  · exact sortDescJs_perm _
  · exact sortDescJs_sorted _
  · intro d0 ds hlev
    set negs := (getBathymetryDepthLevels configured).map (fun d => -|d|) with hnegs
    have hperm : (sortDescJs negs).Perm negs := sortDescJs_perm negs
    have hsorted : (sortDescJs negs).Sorted (· ≥ ·) := sortDescJs_sorted negs
    have hne : sortDescJs negs ≠ [] := by
      intro hnil
      have := hperm.length_eq
      rw [hnil, hnegs, hlev] at this
      simp at this
    obtain ⟨w, ws, hw⟩ := List.exists_cons_of_ne_nil hne
    have hwmem : w ∈ negs := hperm.mem_iff.1 (hw ▸ List.mem_cons_self w ws)
    have hwmem2 : w ∈ (getBathymetryDepthLevels configured).map (fun d => -|d|) :=
      hnegs ▸ hwmem
    obtain ⟨dw, hdw, hwd⟩ := List.mem_map.1 hwmem2
    refine ⟨|dw|, ?_, ?_, ?_⟩
    · show (bandRangesSpec (10000 :: 0 :: sortDescJs negs)).get? 1 = some (0, -|dw|)
      rw [hw, hwd]
      simp [bandRangesSpec]
    · rw [← hlev]
      exact List.mem_map.2 ⟨dw, hdw, rfl⟩
    · intro d hd
      rw [← hlev] at hd
      obtain ⟨d2, hd2, hdd⟩ := List.mem_map.1 hd
      have hmemneg : -|d2| ∈ negs := by
        rw [hnegs]
        exact List.mem_map.2 ⟨d2, hd2, rfl⟩
      have hmem2 : -|d2| ∈ sortDescJs negs := hperm.mem_iff.2 hmemneg
      rw [hw] at hmem2
      rcases List.mem_cons.1 hmem2 with h | h
      · rw [← hdd]
        rw [← h] at hwd
        have : |dw| = |d2| := by
          have := neg_injective hwd
          rw [this]
        rw [this]
      · have hrel := List.rel_of_sorted_cons (hw ▸ hsorted) _ h
        have hge : -|dw| ≥ -|d2| := by rw [hwd]; exact hrel
        rw [← hdd]
        exact neg_le_neg_iff.1 hge

theorem c10_bathymetry_level_list_witness :
    ∃ m, (bandRangesSpec (bathymetryMarchingLevels none)).get? 1 = some (0, -m)
      ∧ m ∈ ([2, 5, 10, 20, 50] : List ℚ).map (fun d => |d|)
      ∧ ∀ d ∈ ([2, 5, 10, 20, 50] : List ℚ).map (fun d => |d|), m ≤ d :=
  (c10_bathymetry_level_list none).2.2.2.2 2 [5, 10, 20, 50] rfl

theorem coalStep_subscribe (cs : List Nat) :
    ∀ (st : CoalState) (f : Nat), st.pending = some f →
      (cs.map CoalEvent.arrive).foldl coalStep st
        = { st with results := st.results ++ cs.map (fun c => (c, f)) } := by
  induction cs with
  | nil => intro st f hp; simp
  | cons c rest ih =>
    intro st f hp
    simp only [List.map_cons, List.foldl_cons]
    have hstep : coalStep st (CoalEvent.arrive c)
        = { st with results := st.results ++ [(c, f)] } := by
      simp [coalStep, hp]
    rw [hstep, ih _ f (by simp [hp])]
    simp

/-- C6: N concurrent requests for the same key all receive the result of a
single underlying fetch: over any arrival sequence followed by the completion of
the fetch, exactly one underlying fetch is started, every caller is subscribed
to that one fetch, the pending-map entry for the key is present (pointing at
that fetch) from the step in which the work starts through every later arrival,
and it is removed when the fetch completes. -/
theorem c6_request_coalescing (callers : List Nat) (hne : callers ≠ []) :
    ((callers.map CoalEvent.arrive ++ [CoalEvent.complete]).foldl coalStep coalInit).started = 1
  ∧ ((callers.map CoalEvent.arrive ++ [CoalEvent.complete]).foldl coalStep coalInit).results
      = callers.map (fun c => (c, 0))
  ∧ ((callers.map CoalEvent.arrive ++ [CoalEvent.complete]).foldl coalStep coalInit).pending
      = none
  ∧ ∀ k, 1 ≤ k →
      (((callers.take k).map CoalEvent.arrive).foldl coalStep coalInit).pending = some 0 := by
  obtain ⟨c0, rest, rfl⟩ := List.exists_cons_of_ne_nil hne
  have hstep0 : coalStep coalInit (CoalEvent.arrive c0)
      = ⟨some 0, 1, [(c0, 0)]⟩ := by
    simp [coalStep, coalInit]
  have hsub := coalStep_subscribe rest ⟨some 0, 1, [(c0, 0)]⟩ 0 rfl
  refine ⟨?_, ?_, ?_, ?_⟩
  · simp only [List.map_cons, List.foldl_append, List.foldl_cons, hstep0, hsub]
    simp [coalStep]
  · simp only [List.map_cons, List.foldl_append, List.foldl_cons, hstep0, hsub]
    simp [coalStep]
  · simp only [List.map_cons, List.foldl_append, List.foldl_cons, hstep0, hsub]
    simp [coalStep]
  · intro k hk
    obtain ⟨k2, rfl⟩ := Nat.exists_eq_add_of_le hk
    rw [Nat.add_comm 1 k2]
    simp only [List.take_succ_cons, List.map_cons, List.foldl_cons, hstep0]
    rw [coalStep_subscribe (rest.take k2) ⟨some 0, 1, [(c0, 0)]⟩ 0 rfl]

theorem c6_request_coalescing_witness :
    (([7, 8, 9].map CoalEvent.arrive ++ [CoalEvent.complete]).foldl coalStep coalInit).started = 1
  ∧ ((([7, 8, 9].take 2).map CoalEvent.arrive).foldl coalStep coalInit).pending = some 0 :=
  ⟨(c6_request_coalescing [7, 8, 9] (by decide)).1,
   (c6_request_coalescing [7, 8, 9] (by decide)).2.2.2 2 (by decide)⟩

theorem getLast?_cons_of_ne_nil {α : Type} (a : α) (l : List α) (h : l ≠ []) :
    (a :: l).getLast? = l.getLast? := by
  obtain ⟨x, xs, rfl⟩ := List.exists_cons_of_ne_nil h
  exact List.getLast?_cons_cons

theorem startsWithDot_cons (n : List Char) : startsWithDot ('.' :: n) = true := by
  simp [startsWithDot]

theorem sectorLoop_ne_nil (pending : List (String × Bool)) (tmpF : List String)
    (failed : Bool) (initFinal : Option (List String)) :
    sectorLoop pending tmpF failed initFinal ≠ [] := by
  cases pending with
  | nil =>
    by_cases h : failed <;> simp [sectorLoop, h]
  | cons p rest =>
    obtain ⟨out, ok⟩ := p
    simp [sectorLoop]

theorem sectorLoop_states (pending : List (String × Bool)) :
    ∀ (tmpF : List String) (failed : Bool) (initFinal : Option (List String))
      (fs : SectorFS), fs ∈ sectorLoop pending tmpF failed initFinal →
        fs.final = initFinal
      ∨ fs.final = none
      ∨ (failed = false ∧ pending.all (fun p => p.2) = true
          ∧ fs.final = some (tmpF ++ okOuts pending)) := by
  induction pending with
  | nil =>
    intro tmpF failed initFinal fs hfs
    by_cases h : failed
    · simp [sectorLoop, h] at hfs
      left; rw [hfs]
    · simp [sectorLoop, h] at hfs
      rcases hfs with h1 | h1
      · right; left; rw [h1]
      · right; right
        refine ⟨by simpa using h, by simp, ?_⟩
        rw [h1]
        simp [okOuts]
  | cons p rest ih =>
    intro tmpF failed initFinal fs hfs
    obtain ⟨out, ok⟩ := p
    simp only [sectorLoop, List.mem_cons] at hfs
    rcases hfs with h1 | h1
    · left; rw [h1]
    · rcases ih _ _ _ _ h1 with h2 | h2 | h2
      · left; exact h2
      · right; left; exact h2
      · obtain ⟨hf, hall, hfin⟩ := h2
        cases ok with
        | false => simp at hf
        | true =>
          right; right
          refine ⟨by simpa using hf, by simpa using hall, ?_⟩
          rw [hfin]
          simp [okOuts, List.filter_cons, List.append_assoc]

theorem sectorLoop_last (pending : List (String × Bool)) :
    ∀ (tmpF : List String) (failed : Bool) (initFinal : Option (List String)),
      ((failed = false ∧ pending.all (fun p => p.2) = true →
        (sectorLoop pending tmpF failed initFinal).getLast?
          = some ⟨none, some (tmpF ++ okOuts pending)⟩)
      ∧ (failed = true ∨ pending.all (fun p => p.2) = false →
        (sectorLoop pending tmpF failed initFinal).getLast? = some ⟨none, initFinal⟩)) := by
  induction pending with
  | nil =>
    intro tmpF failed initFinal
    constructor
    · rintro ⟨hf, -⟩
      simp [sectorLoop, hf, okOuts]
    · intro h
      rcases h with h | h
      · simp [sectorLoop, h]
      · simp at h
  | cons p rest ih =>
    intro tmpF failed initFinal
    obtain ⟨out, ok⟩ := p
    have hunfold : sectorLoop ((out, ok) :: rest) tmpF failed initFinal
        = ⟨some (if ok then tmpF ++ [out] else tmpF), initFinal⟩
          :: sectorLoop rest (if ok then tmpF ++ [out] else tmpF) (failed || !ok) initFinal :=
      rfl
    constructor
    · rintro ⟨hf, hall⟩
      subst hf
      simp only [List.all_cons, Bool.and_eq_true] at hall
      obtain ⟨hok, hall2⟩ := hall
      have hok2 : ok = true := hok
      subst hok2
      have hunfold2 : sectorLoop ((out, true) :: rest) tmpF false initFinal
          = ⟨some (tmpF ++ [out]), initFinal⟩
            :: sectorLoop rest (tmpF ++ [out]) false initFinal := by
        rw [hunfold]; simp
      rw [hunfold2, getLast?_cons_of_ne_nil _ _ (sectorLoop_ne_nil _ _ _ _)]
      rw [(ih (tmpF ++ [out]) false initFinal).1 ⟨rfl, hall2⟩]
      simp [okOuts, List.filter_cons, List.append_assoc]
    · intro h
      have hfail2 : (failed || !ok) = true ∨ rest.all (fun p => p.2) = false := by
        rcases h with h | h
        · left; rw [h]; simp
        · simp only [List.all_cons, Bool.and_eq_false_iff] at h
          rcases h with h | h
          · left; rw [h]; simp
          · right; exact h
      rw [hunfold, getLast?_cons_of_ne_nil _ _ (sectorLoop_ne_nil _ _ _ _)]
      rcases hfail2 with h2 | h2
      · rw [h2]
        exact (ih _ true initFinal).2 (Or.inl rfl)
      · exact (ih _ (failed || !ok) initFinal).2 (Or.inr h2)

theorem zip_all_snd (outputs : List String) (outcomes : List Bool)
    (hlen : outcomes.length = outputs.length) :
    (outputs.zip outcomes).all (fun p => p.2) = outcomes.all id := by
  induction outputs generalizing outcomes with
  | nil => cases outcomes with
    | nil => rfl
    | cons b bs => simp at hlen
  | cons o os ih =>
    cases outcomes with
    | nil => simp at hlen
    | cons b bs =>
      simp only [List.zip_cons_cons, List.all_cons, id]
      rw [ih bs (by simpa using hlen)]

theorem okOuts_of_all (outputs : List String) (outcomes : List Bool)
    (hlen : outcomes.length = outputs.length) (hall : outcomes.all id = true) :
    okOuts (outputs.zip outcomes) = outputs := by
  induction outputs generalizing outcomes with
  | nil => simp [okOuts]
  | cons o os ih =>
    cases outcomes with
    | nil => simp at hlen
    | cons b bs =>
      simp only [List.all_cons, Bool.and_eq_true, id_eq] at hall
      obtain ⟨hb, hbs⟩ := hall
      subst hb
      have hrec := ih bs (by simpa using hlen) hbs
      rw [List.zip_cons_cons]
      have hstep : okOuts ((o, true) :: os.zip bs) = o :: okOuts (os.zip bs) := by
        simp [okOuts, List.filter_cons]
      rw [hstep, hrec]

/-- C3: over one processed sector download, the committed directory appears only
through the final rename after every per-source extraction succeeded, and on any
failure the in-progress directory is deleted instead; at every reachable state
the dot-prefixed in-progress directory is invisible to `list`, and whenever
`list` reports the sector directory, that directory contains every source's
output file (assuming any pre-existing committed directory was itself
complete). -/
theorem c3_atomic_sector_commit (name : List Char) (outputs : List String)
    (outcomes : List Bool) (initFinal : Option (List String))
    (hname : startsWithDot name = false)
    (hlen : outcomes.length = outputs.length)
    (hinit : ∀ fl, initFinal = some fl → ∀ o ∈ outputs, o ∈ fl) :
    (∀ fs ∈ sectorTrace outputs outcomes initFinal,
        ('.' :: name) ∉ sectorListNames name fs
      ∧ (name ∈ sectorListNames name fs →
          ∃ fl, fs.final = some fl ∧ ∀ o ∈ outputs, o ∈ fl))
  ∧ (outcomes.all id = true →
      ∃ fl, (sectorTrace outputs outcomes initFinal).getLast? = some ⟨none, some fl⟩
        ∧ ∀ o ∈ outputs, o ∈ fl)
  ∧ (outcomes.all id = false →
      (sectorTrace outputs outcomes initFinal).getLast? = some ⟨none, initFinal⟩) := by
  have hdotname : ('.' :: name) ≠ name := by
    intro habs
    have := congrArg List.length habs
    simp at this
  have hlist : ∀ fs : SectorFS,
      sectorListNames name fs = if fs.final.isSome then [name] else [] := by
    intro fs
    obtain ⟨tmp, final⟩ := fs
    cases tmp <;> cases final <;>
      simp [sectorListNames, sectorEntries, startsWithDot_cons, hname]
  refine ⟨?_, ?_, ?_⟩
  · intro fs hfs
    constructor
    · rw [hlist fs]
      by_cases h : fs.final.isSome <;> simp [h, hdotname]
    · intro hmem
      rw [hlist fs] at hmem
      have hfinal : fs.final.isSome := by
        by_contra hno
        rw [if_neg hno] at hmem
        simp at hmem
      simp only [sectorTrace, List.mem_cons] at hfs
      have hfromInit : fs.final = initFinal →
          ∃ fl, fs.final = some fl ∧ ∀ o ∈ outputs, o ∈ fl := by
        intro heq
        rcases hf : initFinal with - | fl
        · rw [heq, hf] at hfinal; simp at hfinal
        · exact ⟨fl, by rw [heq]; exact hf, hinit fl hf⟩
      rcases hfs with h1 | h1 | h1
      · exact hfromInit (by rw [h1])
      · exact hfromInit (by rw [h1])
      · rcases sectorLoop_states _ _ _ _ _ h1 with h2 | h2 | h2
        · exact hfromInit h2
        · rw [h2] at hfinal; simp at hfinal
        · obtain ⟨-, hall, hfin⟩ := h2
          refine ⟨okOuts (outputs.zip outcomes), by simpa using hfin, ?_⟩
          have hall2 : outcomes.all id = true := by
            rw [← zip_all_snd outputs outcomes hlen]; exact hall
          rw [okOuts_of_all outputs outcomes hlen hall2]
          intro o ho; exact ho
  · intro hall
    have hzip : (outputs.zip outcomes).all (fun p => p.2) = true := by
      rw [zip_all_snd outputs outcomes hlen]; exact hall
    have hlast := (sectorLoop_last (outputs.zip outcomes) [] false initFinal).1 ⟨rfl, hzip⟩
    refine ⟨okOuts (outputs.zip outcomes), ?_, ?_⟩
    · simp only [sectorTrace]
      rw [getLast?_cons_of_ne_nil _ _ (List.cons_ne_nil _ _),
        getLast?_cons_of_ne_nil _ _ (sectorLoop_ne_nil _ _ _ _)]
      simpa using hlast
    · rw [okOuts_of_all outputs outcomes hlen hall]
      intro o ho; exact ho
  · intro hall
    have hzip : (outputs.zip outcomes).all (fun p => p.2) = false := by
      rw [zip_all_snd outputs outcomes hlen]; exact hall
    have hlast := (sectorLoop_last (outputs.zip outcomes) [] false initFinal).2 (Or.inr hzip)
    simp only [sectorTrace]
    rw [getLast?_cons_of_ne_nil _ _ (List.cons_ne_nil _ _),
      getLast?_cons_of_ne_nil _ _ (sectorLoop_ne_nil _ _ _ _)]
    exact hlast

theorem c3_atomic_sector_commit_witness :
    ∃ fl, (sectorTrace ["a.pmtiles", "b.pmtiles"] [true, true] none).getLast?
        = some ⟨none, some fl⟩
      ∧ ∀ o ∈ ["a.pmtiles", "b.pmtiles"], o ∈ fl :=
  (c3_atomic_sector_commit ['6'] ["a.pmtiles", "b.pmtiles"] [true, true] none
    (by decide) (by decide) (by intro fl h; simp at h)).2.1 (by decide)

/-- C1 counterexample: a request for the known source `osm` at zoom 8 whose
cached tile is fresh (cache mtime 1000000 against now = 1000000, well inside the
7-day window of the claim) while the monitor reports online: the resolver
nevertheless attempts (and serves) the online fetch instead of serving the fresh
cache without network activity — the cited `_fetchTileData` tries the online
tier FIRST and has no freshness window at all. -/
theorem c1_fresh_offline_counterexample :
    SOURCES.find? (fun s => s.name == "osm")
      = some ⟨"osm", some "https://fsn1.your-objectstorage.com/mtk-seamap/osm.pmtiles",
          "osm.pmtiles", 0, 14⟩
  ∧ (0 ≤ 8 ∧ 8 ≤ 14)
  ∧ 1000000 < max 1000000 0 + 604800000
  ∧ (fetchTileData ⟨true, some 7, some (9, 1000000), false, 0, none⟩ "osm" 8 1 2).onlineAttempted
      = true
  ∧ (fetchTileData ⟨true, some 7, some (9, 1000000), false, 0, none⟩ "osm" 8 1 2).result
      = some 7
  ∧ (7 : Nat) ≠ 9 := by
  refine ⟨by decide, by decide, by decide, by decide, by decide, by decide⟩

/-- C1 (amended): the cited resolver is online-first with no freshness window.
For a known source within its zoom range: an online fetch is attempted exactly
when the connectivity monitor reports online and the source has a URL; when the
attempt yields a tile, that tile is returned and written to the cache; in every
other case (offline, no URL, or the online fetch yields nothing) the resolver
serves the offline archive tile when it was read and is strictly newer than the
cache (archive mtime 0 counting as missing), else the cached bytes, else
nothing.  Unknown sources and out-of-range zooms yield nothing without any fetch
or write. -/
theorem c1_resolver_online_first (env : ResolverEnv) (name : String) (z x y : Nat) :
    (SOURCES.find? (fun s => s.name == name) = none →
      fetchTileData env name z x y = ⟨none, false, []⟩)
  ∧ (∀ src, SOURCES.find? (fun s => s.name == name) = some src →
      (z < src.minzoom ∨ src.maxzoom < z) →
      fetchTileData env name z x y = ⟨none, false, []⟩)
  ∧ (∀ src, SOURCES.find? (fun s => s.name == name) = some src →
      src.minzoom ≤ z → z ≤ src.maxzoom →
        ((fetchTileData env name z x y).onlineAttempted = (env.isOnline && src.url.isSome))
      ∧ (∀ b, (env.isOnline && src.url.isSome) = true → env.onlineFetch = some b →
          fetchTileData env name z x y = ⟨some b, true, [b]⟩)
      ∧ (((env.isOnline && src.url.isSome) = false ∨ env.onlineFetch = none) →
          (fetchTileData env name z x y).result = offlineElseCacheSpec env)) := by
  refine ⟨?_, ?_, ?_⟩
  · intro hnone
    simp [fetchTileData, hnone]
  · intro src hsrc hz
    simp [fetchTileData, hsrc, if_pos hz]
  · intro src hsrc hz1 hz2
    have hz : ¬(z < src.minzoom ∨ src.maxzoom < z) := by omega
    refine ⟨?_, ?_, ?_⟩
    · simp only [fetchTileData, hsrc, if_neg hz]
      rcases hon : (if env.isOnline && src.url.isSome then env.onlineFetch else none) with - | b
      · rcases hoff : (if env.offlineExists then env.offlineRead else none) with - | ob
        · rcases hc : env.cached with - | c <;> simp
        · by_cases hwin : (env.cached.isNone || offNewerThanCache
            (if env.offlineExists then some env.offlineMtime else none) env.cached) = true
          · simp [hwin]
          · simp only [Bool.not_eq_true] at hwin
            rcases hc : env.cached with - | c
            · rw [hc] at hwin; simp at hwin
            · rw [hc] at hwin
              simp only [Option.isNone_some, Bool.false_or] at hwin
              simp [hwin, hc]
      · simp
    · intro b hatt hofetch
      simp [fetchTileData, hsrc, if_neg hz, hatt, hofetch]
    · intro hcase
      have honline : (if env.isOnline && src.url.isSome then env.onlineFetch else none) = none := by
        rcases hcase with h | h
        · simp [h]
        · simp [h]
      simp only [fetchTileData, hsrc, if_neg hz, honline]
      rcases hoff : (if env.offlineExists then env.offlineRead else none) with - | ob
      · rcases hc : env.cached with - | c <;>
          simp [offlineElseCacheSpec, hoff, hc]
      · rcases hc : env.cached with - | c
        · simp [offlineElseCacheSpec, hoff, hc, offNewerThanCache]
        · simp only [offlineElseCacheSpec, hoff, hc]
          by_cases hnewer : env.offlineMtime ≠ 0 ∧ c.2 < env.offlineMtime
          · have : offNewerThanCache
                (if env.offlineExists then some env.offlineMtime else none) env.cached = true := by
              have hex : env.offlineExists = true := by
                by_contra hex
                simp only [Bool.not_eq_true] at hex
                rw [hex] at hoff
                simp at hoff
              simp [offNewerThanCache, hc, hex, hnewer.1, hnewer.2]
            rw [hc] at this
            simp [this, if_pos hnewer]
          · have : offNewerThanCache
                (if env.offlineExists then some env.offlineMtime else none) env.cached = false := by
              rcases hex : env.offlineExists
              · simp [offNewerThanCache, hc, hex]
              · simp only [offNewerThanCache, hc, hex, if_pos rfl]
                rcases Decidable.not_and_iff_or_not.1 hnewer with h | h
                · simp only [Ne, Decidable.not_not] at h
                  simp [h]
                · simp [h]
            rw [hc] at this
            simp [this, if_neg hnewer]

theorem c1_resolver_online_first_witness :
    (fetchTileData ⟨false, none, some (9, 5), true, 10, some 11⟩ "osm" 8 1 2).result
      = offlineElseCacheSpec ⟨false, none, some (9, 5), true, 10, some 11⟩ :=
  ((c1_resolver_online_first ⟨false, none, some (9, 5), true, 10, some 11⟩ "osm" 8 1 2).2.2
    ⟨"osm", some "https://fsn1.your-objectstorage.com/mtk-seamap/osm.pmtiles",
      "osm.pmtiles", 0, 14⟩ (by decide) (by decide) (by decide)).2.2 (Or.inl (by decide))

theorem length_takeLast {α : Type} (n : Nat) (l : List α) :
    (takeLast n l).length = min n l.length := by
  simp only [takeLast, List.length_drop]
  omega

theorem takeLast_of_length_le {α : Type} {n : Nat} {l : List α} (h : l.length ≤ n) :
    takeLast n l = l := by
  simp only [takeLast, Nat.sub_eq_zero_of_le h, List.drop_zero]

theorem drop_length_add {α : Type} (A : List α) (k : Nat) :
    ∀ X : List α, (A ++ X).drop (A.length + k) = X.drop k := by
  induction A with
  | nil => intro X; simp
  | cons a rest ih =>
    intro X
    simp only [List.cons_append, List.length_cons]
    rw [Nat.succ_add, List.drop_succ_cons, ih]

theorem takeLast_append_of_le {α : Type} {n : Nat} (A : List α) {X : List α}
    (h : n ≤ X.length) : takeLast n (A ++ X) = takeLast n X := by
  simp only [takeLast, List.length_append]
  rw [show A.length + X.length - n = A.length + (X.length - n) by omega, drop_length_add]

theorem takeLast_append_of_length_eq {α : Type} {n : Nat} (A : List α) {X : List α}
    (h : X.length = n) : takeLast n (A ++ X) = X := by
  rw [takeLast_append_of_le A (le_of_eq h.symm), takeLast_of_length_le (le_of_eq h)]

theorem takeLast_subset {α : Type} {n : Nat} {l : List α} {a : α}
    (h : a ∈ takeLast n l) : a ∈ l :=
  List.drop_subset _ l h

theorem eraseP_map_fst (p : String) :
    ∀ l : List (String × Nat),
      (l.eraseP (fun e => e.1 == p)).map Prod.fst = (l.map Prod.fst).erase p := by
  intro l
  induction l with
  | nil => rfl
  | cons a rest ih =>
    by_cases h : a.1 = p
    · simp [List.eraseP_cons, List.erase_cons, h]
    · have hbeq : (a.1 == p) = false := by simp [h]
      simp only [List.eraseP_cons, hbeq, List.map_cons, List.erase_cons]
      rw [if_neg (by simp [h])]
      simp [ih]

theorem find?_key_none_iff (p : String) (l : List (String × Nat)) :
    l.find? (fun e => e.1 == p) = none ↔ p ∉ l.map Prod.fst := by
  rw [List.find?_eq_none]
  constructor
  · intro h hmem
    obtain ⟨e, he, hfst⟩ := List.mem_map.1 hmem
    have := h e he
    simp [hfst] at this
  · intro h e he
    simp only [beq_iff_eq]
    intro hfst
    exact h (List.mem_map.2 ⟨e, he, hfst⟩)

theorem poolAcquire_keys (m : Nat) (st : PoolState) (p : String) :
    (poolAcquire m st p).entries.map Prod.fst
      = lruKeysStep m (st.entries.map Prod.fst) p := by
  rcases hfind : st.entries.find? (fun e => e.1 == p) with - | e
  · have hnotmem : p ∉ st.entries.map Prod.fst := (find?_key_none_iff p st.entries).1 hfind
    simp only [poolAcquire, hfind, lruKeysStep, if_neg hnotmem]
    rcases hent : st.entries with - | ⟨old, rest⟩
    · by_cases hm : m ≤ 0 <;> simp [hent, hm]
    · by_cases hlen : m ≤ rest.length + 1
      · simp [hent, hlen]
      · simp [hent, hlen]
  · have hkey : e.1 = p := by
      have := List.find?_some hfind
      simpa using this
    have hmem : p ∈ st.entries.map Prod.fst := by
      refine List.mem_map.2 ⟨e, List.mem_of_find?_eq_some hfind, hkey⟩
    simp only [poolAcquire, hfind, lruKeysStep, if_pos hmem]
    rw [List.map_append, eraseP_map_fst]
    simp [hkey]

theorem mruList_concat (ops : List String) (p : String) :
    mruList (ops ++ [p]) = (mruList ops).erase p ++ [p] := by
  simp [mruList, List.foldl_append]

theorem mruList_nodup (ops : List String) : (mruList ops).Nodup := by
  induction ops using List.reverseRecOn with
  | nil => simp [mruList]
  | append_singleton ops p ih =>
    rw [mruList_concat]
    rw [List.nodup_append]
    refine ⟨ih.erase p, List.nodup_singleton p, ?_⟩
    intro a ha hb
    simp only [List.mem_singleton] at hb
    subst hb
    exact (List.Nodup.mem_erase_iff ih).1 ha |>.1 rfl

theorem lruKeysStep_takeLast {m : Nat} (hm : 0 < m) (R : List String) (p : String)
    (hR : R.Nodup) :
    lruKeysStep m (takeLast m R) p = takeLast m (R.erase p ++ [p]) := by
  set K := takeLast m R with hKdef
  have hdecomp : R.take (R.length - m) ++ K = R := List.take_append_drop _ R
  by_cases hmem : p ∈ K
  · have hmemR : p ∈ R := takeLast_subset hmem
    have hpA : p ∉ R.take (R.length - m) := by
      intro hin
      have hnd : (R.take (R.length - m) ++ K).Nodup := by rw [hdecomp]; exact hR
      exact (List.disjoint_of_nodup_append hnd) hin hmem
    have herase : R.erase p = R.take (R.length - m) ++ K.erase p := by
      conv_lhs => rw [← hdecomp]
      exact List.erase_append_right _ hpA
    rw [lruKeysStep, if_pos hmem]
    by_cases hlen : R.length ≤ m
    · have hA : R.take (R.length - m) = [] := by
        rw [Nat.sub_eq_zero_of_le hlen, List.take_zero]
      have hK : K = R := takeLast_of_length_le hlen
      have hlen2 : (R.erase p ++ [p]).length ≤ m := by
        rw [List.length_append, List.length_erase_of_mem hmemR]
        have : 1 ≤ R.length := List.length_pos_of_mem hmemR
        simp only [List.length_singleton]
        omega
      rw [takeLast_of_length_le hlen2, herase, hA, List.nil_append, hK]
    · have hKlen : K.length = m := by
        rw [hKdef, length_takeLast]; omega
      have hlen3 : (K.erase p ++ [p]).length = m := by
        rw [List.length_append, List.length_erase_of_mem hmem, hKlen]
        simp only [List.length_singleton]
        omega
      rw [herase, List.append_assoc, takeLast_append_of_length_eq _ hlen3]
  · rw [lruKeysStep, if_neg hmem]
    by_cases hlen : R.length ≤ m
    · have hK : K = R := takeLast_of_length_le hlen
      have hKR : K.length = R.length := by rw [hK]
      have hpR : p ∉ R := by rw [← hK]; exact hmem
      have herase : R.erase p = R := List.erase_of_not_mem hpR
      by_cases hfull : m ≤ K.length
      · rw [if_pos hfull, herase]
        have hmR : m = R.length := by omega
        have h1 : takeLast m (R ++ [p]) = (R ++ [p]).drop 1 := by
          simp only [takeLast, List.length_append, List.length_singleton]
          congr 1
          omega
        rw [h1, List.drop_append_of_le_length (by omega : 1 ≤ R.length), List.drop_one, hK]
      · rw [if_neg hfull, herase]
        have hlen2 : (R ++ [p]).length ≤ m := by
          rw [List.length_append]
          simp only [List.length_singleton]
          omega
        rw [takeLast_of_length_le hlen2, hK]
    · have hKlen : K.length = m := by
        rw [hKdef, length_takeLast]; omega
      have hfull : m ≤ K.length := le_of_eq hKlen.symm
      rw [if_pos hfull]
      have hKne : 1 ≤ K.length := by omega
      have htail : takeLast m (K ++ [p]) = K.tail ++ [p] := by
        have h1 : takeLast m (K ++ [p]) = (K ++ [p]).drop 1 := by
          simp only [takeLast, List.length_append, List.length_singleton]
          congr 1
          omega
        rw [h1, List.drop_append_of_le_length hKne, List.drop_one]
      have hXlen : m ≤ (K ++ [p]).length := by
        rw [List.length_append]
        simp only [List.length_singleton]
        omega
      by_cases hpR : p ∈ R
      · have hpA : p ∈ R.take (R.length - m) := by
          have := hdecomp ▸ hpR
          rcases List.mem_append.1 this with h | h
          · exact h
          · exact absurd h hmem
        have herase : R.erase p = (R.take (R.length - m)).erase p ++ K := by
          conv_lhs => rw [← hdecomp]
          exact List.erase_append_left _ hpA
        rw [herase, List.append_assoc, takeLast_append_of_le _ hXlen, htail]
      · have herase : R.erase p = R := List.erase_of_not_mem hpR
        rw [herase]
        conv_rhs => rw [← hdecomp, List.append_assoc]
        rw [takeLast_append_of_le _ hXlen, htail]

theorem find?_eraseP_perm (pred : String × Nat → Bool) :
    ∀ (l : List (String × Nat)) (e : String × Nat), l.find? pred = some e →
      l.Perm (l.eraseP pred ++ [e]) := by
  intro l
  induction l with
  | nil => intro e h; simp at h
  | cons a rest ih =>
    intro e h
    by_cases hp : pred a = true
    · rw [List.find?_cons_of_pos _ hp] at h
      injection h with h
      subst h
      have herase : List.eraseP pred (a :: rest) = rest := by
        simp [List.eraseP_cons, hp]
      rw [herase]
      exact (List.perm_append_singleton a rest).symm
    · have hp2 : pred a = false := by simpa using hp
      rw [List.find?_cons_of_neg _ (by simp [hp2])] at h
      have herase : List.eraseP pred (a :: rest) = a :: List.eraseP pred rest := by
        simp [List.eraseP_cons, hp2]
      rw [herase]
      exact ((ih e h).cons a).trans (by simp)

theorem poolAcquire_hit (m : Nat) (st : PoolState) (p : String) (e : String × Nat)
    (hfind : st.entries.find? (fun x => x.1 == p) = some e) :
    poolAcquire m st p = ⟨st.entries.eraseP (fun x => x.1 == p) ++ [e], st.nextId,
      st.closedReaders, st.closedFds⟩ := by
  simp [poolAcquire, hfind]

theorem poolAcquire_miss_noevict (m : Nat) (st : PoolState) (p : String)
    (hfind : st.entries.find? (fun x => x.1 == p) = none)
    (hlen : ¬ m ≤ st.entries.length) :
    poolAcquire m st p
      = ⟨st.entries ++ [(p, st.nextId)], st.nextId + 1, st.closedReaders, st.closedFds⟩ := by
  simp [poolAcquire, hfind, hlen]

theorem poolAcquire_miss_evict (m : Nat) (st : PoolState) (p : String)
    (old : String × Nat) (rest : List (String × Nat))
    (hfind : st.entries.find? (fun x => x.1 == p) = none)
    (hent : st.entries = old :: rest) (hlen : m ≤ st.entries.length) :
    poolAcquire m st p
      = ⟨rest ++ [(p, st.nextId)], st.nextId + 1,
          st.closedReaders ++ [old.2], st.closedFds ++ [old.2]⟩ := by
  have hlen2 : m ≤ rest.length + 1 := by rw [hent] at hlen; simpa using hlen
  have hfind2 : (old :: rest).find? (fun x => x.1 == p) = none := hent ▸ hfind
  simp [poolAcquire, hfind2, hent, hlen2]

theorem pool_invariant (ops : List String) :
    (runPool ops).entries.map Prod.fst = takeLast 50 (mruList ops)
  ∧ (∀ i, i < (runPool ops).nextId →
      (∃ q, (q, i) ∈ (runPool ops).entries)
      ∨ (i ∈ (runPool ops).closedReaders ∧ i ∈ (runPool ops).closedFds))
  ∧ (∀ e ∈ (runPool ops).entries, e.2 < (runPool ops).nextId) := by
  induction ops using List.reverseRecOn with
  | nil =>
    refine ⟨rfl, ?_, ?_⟩
    · intro i hi
      simp [runPool, poolInit] at hi
    · intro e he
      simp [runPool, poolInit] at he
  | append_singleton ops p ih =>
    obtain ⟨ihkeys, ihclosed, ihbound⟩ := ih
    have hrun : runPool (ops ++ [p]) = poolAcquire 50 (runPool ops) p := by
      simp [runPool, List.foldl_append]
    refine ⟨?_, ?_, ?_⟩
    · rw [hrun, poolAcquire_keys, ihkeys,
        lruKeysStep_takeLast (by omega) _ p (mruList_nodup ops), mruList_concat]
    · intro i hi
      rw [hrun] at hi ⊢
      rcases hfind : (runPool ops).entries.find? (fun x => x.1 == p) with - | e
      · by_cases hlen : 50 ≤ (runPool ops).entries.length
        · rcases hent : (runPool ops).entries with - | ⟨old, rest⟩
          · rw [hent] at hlen
            simp at hlen
          · rw [poolAcquire_miss_evict 50 _ p old rest hfind hent hlen] at hi ⊢
            rcases Nat.lt_succ_iff_lt_or_eq.1 hi with hi2 | hi2
            · rcases ihclosed i hi2 with ⟨q, hq⟩ | ⟨h1, h2⟩
              · rw [hent] at hq
                rcases List.mem_cons.1 hq with hq2 | hq2
                · right
                  have hiold : i = old.2 := by rw [← hq2]
                  constructor <;> · exact List.mem_append.2 (Or.inr (by simp [hiold]))
                · left
                  exact ⟨q, List.mem_append.2 (Or.inl hq2)⟩
              · right
                exact ⟨List.mem_append.2 (Or.inl h1), List.mem_append.2 (Or.inl h2)⟩
            · left
              exact ⟨p, List.mem_append.2 (Or.inr (by simp [hi2]))⟩
        · rw [poolAcquire_miss_noevict 50 _ p hfind hlen] at hi ⊢
          rcases Nat.lt_succ_iff_lt_or_eq.1 hi with hi2 | hi2
          · rcases ihclosed i hi2 with ⟨q, hq⟩ | ⟨h1, h2⟩
            · left
              exact ⟨q, List.mem_append.2 (Or.inl hq)⟩
            · right
              exact ⟨h1, h2⟩
          · left
            exact ⟨p, List.mem_append.2 (Or.inr (by simp [hi2]))⟩
      · have hperm := find?_eraseP_perm _ _ _ hfind
        rw [poolAcquire_hit 50 _ p e hfind] at hi ⊢
        rcases ihclosed i hi with ⟨q, hq⟩ | ⟨h1, h2⟩
        · left
          exact ⟨q, hperm.mem_iff.1 hq⟩
        · right
          exact ⟨h1, h2⟩
    · intro e he
      rw [hrun] at he ⊢
      rcases hfind : (runPool ops).entries.find? (fun x => x.1 == p) with - | e2
      · by_cases hlen : 50 ≤ (runPool ops).entries.length
        · rcases hent : (runPool ops).entries with - | ⟨old, rest⟩
          · rw [hent] at hlen
            simp at hlen
          · rw [poolAcquire_miss_evict 50 _ p old rest hfind hent hlen] at he ⊢
            show e.2 < (runPool ops).nextId + 1
            rcases List.mem_append.1 he with h | h
            · have := ihbound e (by rw [hent]; exact List.mem_cons_of_mem _ h)
              omega
            · simp only [List.mem_singleton] at h
              rw [h]
              simp
        · rw [poolAcquire_miss_noevict 50 _ p hfind hlen] at he ⊢
          show e.2 < (runPool ops).nextId + 1
          rcases List.mem_append.1 he with h | h
          · have := ihbound e h
            omega
          · simp only [List.mem_singleton] at h
            rw [h]
            simp
      · have hperm := find?_eraseP_perm _ _ _ hfind
        rw [poolAcquire_hit 50 _ p e2 hfind] at he ⊢
        exact ihbound e (hperm.mem_iff.2 he)

/-- C5: for every finite acquire sequence on the LRU handle pool (bound 50) the
pool never exceeds the bound, the retained entries are exactly the most
recently used (at most) 50 distinct paths in most-recently-used order, and every
handle ever opened is either still live in the pool or has had both its archive
reader and its underlying file descriptor closed — eviction closes both in the
same step in which the entry leaves the map. -/
theorem c5_lru_pool (ops : List String) :
    (runPool ops).entries.length ≤ 50
  ∧ (runPool ops).entries.map Prod.fst = takeLast 50 (mruList ops)
  ∧ (∀ i, i < (runPool ops).nextId →
      (∃ q, (q, i) ∈ (runPool ops).entries)
      ∨ (i ∈ (runPool ops).closedReaders ∧ i ∈ (runPool ops).closedFds)) := by
  obtain ⟨hkeys, hclosed, -⟩ := pool_invariant ops
  refine ⟨?_, hkeys, hclosed⟩
  have : ((runPool ops).entries.map Prod.fst).length = (takeLast 50 (mruList ops)).length := by
    rw [hkeys]
  rw [List.length_map, length_takeLast] at this
  omega

theorem c5_lru_pool_witness :
    (∃ q, (q, 0) ∈ (runPool ["a", "b", "a"]).entries)
    ∨ (0 ∈ (runPool ["a", "b", "a"]).closedReaders
        ∧ 0 ∈ (runPool ["a", "b", "a"]).closedFds) :=
  (c5_lru_pool ["a", "b", "a"]).2.2 0 (by decide)

theorem wrapX_of_lt {x m : Nat} (h : x < m) : wrapX (x : Int) m = x := by
  have h1 : ((x : Int) + (m : Int) * 1) % (m : Int) = (x : Int) % (m : Int) :=
    Int.add_mul_emod_self_left (x : Int) (m : Int) 1
  have h2 : (x : Int) % (m : Int) = (x : Int) :=
    Int.emod_eq_of_lt (by omega) (by exact_mod_cast h)
  simp only [wrapX]
  rw [show (x : Int) + (m : Int) = (x : Int) + (m : Int) * 1 by ring, h1, h2]
  exact Int.toNat_natCast x

theorem contoursNeighborAt_getD (dem : Nat → Nat → Nat → Option HeightTile)
    (z x y : Nat) (dx dy : Int) (F : HeightTile) :
    (contoursNeighborAt dem z x y dx dy).getD F
      = if 0 ≤ (y : Int) + dy ∧ (y : Int) + dy < ((2 ^ z : Nat) : Int) then
          (dem z (wrapX ((x : Int) + dx) (2 ^ z)) ((y : Int) + dy).toNat).getD F
        else F := by
  simp only [contoursNeighborAt]
  by_cases h : ((y : Int) + dy < 0 ∨ ((2 ^ z : Nat) : Int) ≤ (y : Int) + dy)
  · rw [if_pos h, if_neg (by omega)]
    rfl
  · rw [if_neg h, if_pos (by omega)]

theorem contoursLoadNeighbors_eq (dem : Nat → Nat → Nat → Option HeightTile)
    (z x y : Nat) (hx : x < 2 ^ z) (hy : y < 2 ^ z) :
    contoursLoadNeighbors dem z x y = contoursNeighborsSpec dem z x y := by
  have hylt : (y : Int) < ((2 ^ z : Nat) : Int) := by exact_mod_cast hy
  have hcenter : contoursNeighborAt dem z x y 0 0 = dem z x y := by
    simp only [contoursNeighborAt]
    rw [if_neg (by omega)]
    rw [show (x : Int) + 0 = (x : Int) by ring, wrapX_of_lt hx,
      show (y : Int) + 0 = (y : Int) by ring, Int.toNat_natCast]
  have hget4 : (neighborOffsets.map
      (fun o => contoursNeighborAt dem z x y o.2 o.1)).get? 4
      = some (contoursNeighborAt dem z x y 0 0) := by
    simp [neighborOffsets]
  simp only [contoursLoadNeighbors]
  rw [hget4, hcenter]
  cases hc : dem z x y with
  | none => simp [contoursNeighborsSpec, hc]
  | some c =>
    simp only [contoursNeighborsSpec, hc]
    rw [List.map_map]
    refine congrArg some (List.map_congr_left ?_)
    intro o ho
    simp only [Function.comp]
    rw [contoursNeighborAt_getD]

theorem soundingsNeighborAt_getD (terrain : Nat → Nat → Nat → Option HeightTile)
    (maxzoom z x y overzoom : Nat) (dx dy : Int) (F : HeightTile) :
    (soundingsNeighborAt terrain maxzoom z x y overzoom dx dy).getD F
      = if (dx = -1 ∧ x % 2 ^ (z - min (z - overzoom) maxzoom) ≠ 0)
          ∨ (dx = 1 ∧ x % 2 ^ (z - min (z - overzoom) maxzoom)
              ≠ 2 ^ (z - min (z - overzoom) maxzoom) - 1)
          ∨ (dy = -1 ∧ y % 2 ^ (z - min (z - overzoom) maxzoom) ≠ 0)
          ∨ (dy = 1 ∧ y % 2 ^ (z - min (z - overzoom) maxzoom)
              ≠ 2 ^ (z - min (z - overzoom) maxzoom) - 1) then F
        else if 0 ≤ ((y / 2 ^ (z - min (z - overzoom) maxzoom) : Nat) : Int) + dy
            ∧ ((y / 2 ^ (z - min (z - overzoom) maxzoom) : Nat) : Int) + dy
              < ((2 ^ min (z - overzoom) maxzoom : Nat) : Int) then
          (terrain (min (z - overzoom) maxzoom)
            (wrapX (((x / 2 ^ (z - min (z - overzoom) maxzoom) : Nat) : Int) + dx)
              (2 ^ min (z - overzoom) maxzoom))
            (((y / 2 ^ (z - min (z - overzoom) maxzoom) : Nat) : Int) + dy).toNat).getD F
        else F := by
  simp only [soundingsNeighborAt]
  by_cases h1 : dx = -1 ∧ x % 2 ^ (z - min (z - overzoom) maxzoom) ≠ 0
  · simp [h1]
  · by_cases h2 : dx = 1 ∧ x % 2 ^ (z - min (z - overzoom) maxzoom)
        ≠ 2 ^ (z - min (z - overzoom) maxzoom) - 1
    · simp [h1, h2]
    · by_cases h3 : dy = -1 ∧ y % 2 ^ (z - min (z - overzoom) maxzoom) ≠ 0
      · simp [h1, h2, h3]
      · by_cases h4 : dy = 1 ∧ y % 2 ^ (z - min (z - overzoom) maxzoom)
            ≠ 2 ^ (z - min (z - overzoom) maxzoom) - 1
        · simp [h1, h2, h3, h4]
        · have hnd : ¬((dx = -1 ∧ x % 2 ^ (z - min (z - overzoom) maxzoom) ≠ 0)
              ∨ (dx = 1 ∧ x % 2 ^ (z - min (z - overzoom) maxzoom)
                  ≠ 2 ^ (z - min (z - overzoom) maxzoom) - 1)
              ∨ (dy = -1 ∧ y % 2 ^ (z - min (z - overzoom) maxzoom) ≠ 0)
              ∨ (dy = 1 ∧ y % 2 ^ (z - min (z - overzoom) maxzoom)
                  ≠ 2 ^ (z - min (z - overzoom) maxzoom) - 1)) := by
            tauto
          rw [if_neg h1, if_neg h2, if_neg h3, if_neg h4, if_neg hnd]
          by_cases h5 : ((y / 2 ^ (z - min (z - overzoom) maxzoom) : Nat) : Int) + dy < 0
              ∨ ((2 ^ min (z - overzoom) maxzoom : Nat) : Int)
                ≤ ((y / 2 ^ (z - min (z - overzoom) maxzoom) : Nat) : Int) + dy
          · rw [if_pos h5, if_neg (by omega)]
            rfl
          · rw [if_neg h5, if_pos (by omega)]

theorem soundingsLoadNeighbors_eq (terrain : Nat → Nat → Nat → Option HeightTile)
    (maxzoom z x y overzoom : Nat) (hx : x < 2 ^ z) (hy : y < 2 ^ z) :
    soundingsLoadNeighbors terrain maxzoom z x y overzoom
      = soundingsNeighborsSpec terrain maxzoom z x y overzoom := by
  have hfzle : min (z - overzoom) maxzoom ≤ z :=
    le_trans (Nat.min_le_left _ _) (Nat.sub_le _ _)
  have hscale0 : 0 < 2 ^ (z - min (z - overzoom) maxzoom) :=
    Nat.pos_pow_of_pos _ (by omega)
  have hpow : 2 ^ min (z - overzoom) maxzoom * 2 ^ (z - min (z - overzoom) maxzoom)
      = 2 ^ z := by
    rw [← pow_add]
    congr 1
    omega
  have hfx : x / 2 ^ (z - min (z - overzoom) maxzoom) < 2 ^ min (z - overzoom) maxzoom := by
    rw [Nat.div_lt_iff_lt_mul hscale0]
    omega
  have hfy : y / 2 ^ (z - min (z - overzoom) maxzoom) < 2 ^ min (z - overzoom) maxzoom := by
    rw [Nat.div_lt_iff_lt_mul hscale0]
    omega
  have hfylt : ((y / 2 ^ (z - min (z - overzoom) maxzoom) : Nat) : Int)
      < ((2 ^ min (z - overzoom) maxzoom : Nat) : Int) := by exact_mod_cast hfy
  have hfy0 : (0 : Int) ≤ ((y / 2 ^ (z - min (z - overzoom) maxzoom) : Nat) : Int) :=
    Int.natCast_nonneg _
  have hcenter : soundingsNeighborAt terrain maxzoom z x y overzoom 0 0
      = terrain (min (z - overzoom) maxzoom)
          (x / 2 ^ (z - min (z - overzoom) maxzoom))
          (y / 2 ^ (z - min (z - overzoom) maxzoom)) := by
    simp only [soundingsNeighborAt]
    rw [if_neg (by simp), if_neg (by simp), if_neg (by simp), if_neg (by simp),
      if_neg (by omega)]
    rw [show ((x / 2 ^ (z - min (z - overzoom) maxzoom) : Nat) : Int) + 0
        = ((x / 2 ^ (z - min (z - overzoom) maxzoom) : Nat) : Int) by ring,
      wrapX_of_lt hfx,
      show ((y / 2 ^ (z - min (z - overzoom) maxzoom) : Nat) : Int) + 0
        = ((y / 2 ^ (z - min (z - overzoom) maxzoom) : Nat) : Int) by ring,
      Int.toNat_natCast]
  have hget4 : (neighborOffsets.map
      (fun o => soundingsNeighborAt terrain maxzoom z x y overzoom o.2 o.1)).get? 4
      = some (soundingsNeighborAt terrain maxzoom z x y overzoom 0 0) := by
    simp [neighborOffsets]
  simp only [soundingsLoadNeighbors]
  rw [hget4, hcenter]
  cases hc : terrain (min (z - overzoom) maxzoom)
      (x / 2 ^ (z - min (z - overzoom) maxzoom))
      (y / 2 ^ (z - min (z - overzoom) maxzoom)) with
  | none => simp [soundingsNeighborsSpec, hc]
  | some c =>
    simp only [soundingsNeighborsSpec, hc]
    rw [List.map_map]
    refine congrArg some (List.map_congr_left ?_)
    intro o ho
    simp only [Function.comp]
    exact soundingsNeighborAt_getD terrain maxzoom z x y overzoom o.2 o.1
      (fillTile c.width c.height none)

/-- C8 counterexample: in the soundings composition (contours.js 1044-1071) an
off-sphere north neighbor is replaced by an all-NaN tile, not by the all-zero
tile the claim states for all three derived kinds: at `(z, x, y) = (1, 0, 0)`
with `overzoom = 1` the north neighbor entry is the NaN fill, which differs
from the zero fill of equal dimensions. -/
theorem c8_soundings_nan_fill_counterexample :
    (soundingsLoadNeighbors (fun _ _ _ => some (fillTile 2 2 (some 5))) 10 1 0 0 1).map
        (fun l => l.get? 1)
      = some (some (fillTile 2 2 none))
  ∧ fillTile 2 2 none ≠ fillTile 2 2 (some 0) := by
  constructor
  · with_unfolding_all rfl
  · exact of_decide_eq_false (by with_unfolding_all rfl)

/-- C8 (amended): for the contours composition the nine neighbors wrap in X via
`(i + max) mod max` at the request zoom, out-of-range-Y or missing neighbors
are replaced by all-ZERO tiles of the center's dimensions, and a missing center
makes the composition absent; the soundings composition works at
`fetchZoom = min(z − overzoom, maxzoom)` with the same X wrap (modulo
`2^fetchZoom`) and the same center rule but replaces skipped, out-of-range or
missing neighbors by all-NaN tiles; `(i + max) mod max` sends `-1` to `max − 1`
and `max` to `0` (the date-line wrap). -/
theorem c8_neighbor_composition (dem terrain : Nat → Nat → Nat → Option HeightTile)
    (maxzoom z x y overzoom : Nat) (hx : x < 2 ^ z) (hy : y < 2 ^ z) :
    contoursLoadNeighbors dem z x y = contoursNeighborsSpec dem z x y
  ∧ soundingsLoadNeighbors terrain maxzoom z x y overzoom
      = soundingsNeighborsSpec terrain maxzoom z x y overzoom
  ∧ (∀ m : Nat, 0 < m → wrapX (-1) m = m - 1 ∧ wrapX ((m : Nat) : Int) m = 0) := by
  refine ⟨contoursLoadNeighbors_eq dem z x y hx hy,
    soundingsLoadNeighbors_eq terrain maxzoom z x y overzoom hx hy, ?_⟩
  intro m hm
  constructor
  · have h1 : ((-1 : Int) + (m : Int)) % (m : Int) = (-1 : Int) + (m : Int) :=
      Int.emod_eq_of_lt (by omega) (by omega)
    simp only [wrapX, h1]
    omega
  · have h1 : ((m : Int) + (m : Int)) % (m : Int) = 0 := by
      rw [show (m : Int) + (m : Int) = (m : Int) + (m : Int) * 1 by ring,
        Int.add_mul_emod_self_left, Int.emod_self]
    simp [wrapX, h1]

theorem c8_neighbor_composition_witness :
    contoursLoadNeighbors (fun _ _ _ => none) 3 1 2 = contoursNeighborsSpec (fun _ _ _ => none) 3 1 2
  ∧ wrapX (-1) 8 = 7 :=
  ⟨(c8_neighbor_composition (fun _ _ _ => none) (fun _ _ _ => none) 10 3 1 2 1
      (by decide) (by decide)).1,
   ((c8_neighbor_composition (fun _ _ _ => none) (fun _ _ _ => none) 10 3 1 2 1
      (by decide) (by decide)).2.2 8 (by decide)).1⟩

/-- C9: the soundings generator is deterministic: with the same height data the
whole feature pipeline is a pure function of `(z, x, y)` and the configuration,
so any byte encoder applied to two invocations yields identical bytes; the
jittered grid depends on the tile coordinates only through the seed
`z·10^6 + x·10^3 + y`; and the pseudo-random stream is the 32-bit LCG
`s ← (s·1664525 + 1013904223) mod 2^32`. -/
theorem c9_soundings_determinism (ht : HeightTile) (z x y z2 x2 y2 : Nat)
    (isBathymetry sortAsc : Bool) (encode : List SoundingFeature → List Nat)
    (hseed : soundingsSeed z x y = soundingsSeed z2 x2 y2) :
    encode (generateSoundingsFeatures ht z x y isBathymetry sortAsc)
      = encode (generateSoundingsFeatures ht z x y isBathymetry sortAsc)
  ∧ (∀ minx miny maxx maxy spacing,
      generateJitteredGrid minx miny maxx maxy spacing x y z
        = generateJitteredGrid minx miny maxx maxy spacing x2 y2 z2)
  ∧ soundingsSeed z x y = z * 1000000 + x * 1000 + y
  ∧ (∀ s, lcgNext s = (s * 1664525 + 1013904223) % 2 ^ 32) := by
  refine ⟨rfl, ?_, rfl, ?_⟩
  · intro minx miny maxx maxy spacing
    simp only [generateJitteredGrid]
    rw [hseed]
  · intro s
    rw [lcgNext]
    norm_num

theorem c9_soundings_determinism_witness :
    generateJitteredGrid 0 0 4096 4096 768 5 6 7
      = generateJitteredGrid 0 0 4096 4096 768 5 6 7 :=
  (c9_soundings_determinism (fillTile 1 1 (some 0)) 7 5 6 7 5 6 true true
    (fun l => [l.length]) rfl).2.1 0 0 4096 4096 768

/-! ### C7: isoband ring classification and hole assignment -/

theorem holeScan_cons (hx hy : ℚ) (o : Ring) (rest : List Ring) (i : Nat)
    (best : Option (Nat × ℚ)) :
    holeScan hx hy (o :: rest) i best
      = holeScan hx hy rest (i + 1)
          (if betterFlag o best && pointInRing hx hy o
            then some (i, |ringSignedArea o|) else best) := rfl

theorem holeScan_le (hx hy : ℚ) :
    ∀ (l : List Ring) (i : Nat) (best : Option (Nat × ℚ)) (k : Nat) (a : ℚ),
      holeScan hx hy l i best = some (k, a) →
        (∀ b, best = some b → a ≤ b.2)
        ∧ (∀ o ∈ l, pointInRing hx hy o = true → a ≤ |ringSignedArea o|) := by
  intro l
  induction l with
  | nil =>
    intro i best k a h
    simp only [holeScan] at h
    refine ⟨?_, ?_⟩
    · intro b hb
      rw [hb] at h
      injection h with h2
      rw [h2]
    · intro o ho
      simp at ho
  | cons o rest ih =>
    intro i best k a h
    rw [holeScan_cons] at h
    by_cases hcond : (betterFlag o best && pointInRing hx hy o) = true
    · rw [if_pos hcond] at h
      obtain ⟨hle, hall⟩ := ih (i + 1) (some (i, |ringSignedArea o|)) k a h
      have haa : a ≤ |ringSignedArea o| := hle (i, |ringSignedArea o|) rfl
      refine ⟨?_, ?_⟩
      · intro b hb
        subst hb
        have hcond2 := hcond
        rw [Bool.and_eq_true] at hcond2
        have hbetter := hcond2.1
        rw [betterFlag] at hbetter
        simp only [decide_eq_true_eq] at hbetter
        exact le_trans haa (le_of_lt hbetter)
      · intro o2 ho2 hpir
        rcases List.mem_cons.1 ho2 with rfl | ho2
        · exact haa
        · exact hall o2 ho2 hpir
    · rw [if_neg hcond] at h
      obtain ⟨hle, hall⟩ := ih (i + 1) best k a h
      refine ⟨hle, ?_⟩
      intro o2 ho2 hpir
      rcases List.mem_cons.1 ho2 with rfl | ho2
      · have hbf : betterFlag o2 best = false := by
          cases hb2 : betterFlag o2 best with
          | false => rfl
          | true => exact absurd (by rw [hb2, hpir]; rfl) hcond
        cases hbest : best with
        | none => rw [hbest, betterFlag] at hbf; simp at hbf
        | some b0 =>
          rw [hbest, betterFlag] at hbf
          simp only [decide_eq_false_iff_not, not_lt] at hbf
          exact le_trans (hle b0 hbest) hbf
      · exact hall o2 ho2 hpir

theorem holeScan_mem (hx hy : ℚ) :
    ∀ (l : List Ring) (i : Nat) (best : Option (Nat × ℚ)) (k : Nat) (a : ℚ),
      holeScan hx hy l i best = some (k, a) →
        best = some (k, a)
        ∨ ∃ j o, l.get? j = some o ∧ k = i + j ∧ pointInRing hx hy o = true
            ∧ a = |ringSignedArea o| := by
  intro l
  induction l with
  | nil =>
    intro i best k a h
    simp only [holeScan] at h
    exact Or.inl h
  | cons o rest ih =>
    intro i best k a h
    rw [holeScan_cons] at h
    by_cases hcond : (betterFlag o best && pointInRing hx hy o) = true
    · rw [if_pos hcond] at h
      rcases ih (i + 1) _ k a h with h2 | h2
      · injection h2 with h2
        obtain ⟨h3, h4⟩ := Prod.ext_iff.1 h2
        have h5 : i = k := h3
        have hcond2 := hcond
        rw [Bool.and_eq_true] at hcond2
        right
        exact ⟨0, o, rfl, by omega, hcond2.2, h4.symm⟩
      · obtain ⟨j, o2, hget, hk, hpir, ha⟩ := h2
        right
        exact ⟨j + 1, o2, by simpa using hget, by omega, hpir, ha⟩
    · rw [if_neg hcond] at h
      rcases ih (i + 1) best k a h with h2 | h2
      · exact Or.inl h2
      · obtain ⟨j, o2, hget, hk, hpir, ha⟩ := h2
        right
        exact ⟨j + 1, o2, by simpa using hget, by omega, hpir, ha⟩

theorem holeScan_isSome (hx hy : ℚ) :
    ∀ (l : List Ring) (i : Nat) (best : Option (Nat × ℚ)),
      ((∃ o ∈ l, pointInRing hx hy o = true) ∨ best.isSome = true) →
        (holeScan hx hy l i best).isSome = true := by
  intro l
  induction l with
  | nil =>
    intro i best h
    simp only [holeScan]
    rcases h with ⟨o, ho, -⟩ | h
    · simp at ho
    · exact h
  | cons o rest ih =>
    intro i best h
    rw [holeScan_cons]
    by_cases hcond : (betterFlag o best && pointInRing hx hy o) = true
    · rw [if_pos hcond]
      exact ih (i + 1) (some (i, |ringSignedArea o|)) (Or.inr rfl)
    · rw [if_neg hcond]
      apply ih (i + 1) best
      rcases h with ⟨o2, ho2, hpir⟩ | hbs
      · rcases List.mem_cons.1 ho2 with rfl | ho2
        · right
          cases hbest : best with
          | none =>
            rw [hbest] at hcond
            exact absurd (by rw [hpir]; rfl) hcond
          | some b => rfl
        · exact Or.inl ⟨o2, ho2, hpir⟩
      · exact Or.inr hbs

theorem updateAt_map_fst {α β : Type} (g : α → β) :
    ∀ (l : List α) (i : Nat) (f : α → α), (∀ x, g (f x) = g x) →
      (updateAt l i f).map g = l.map g := by
  intro l
  induction l with
  | nil => intro i f hf; rfl
  | cons a rest ih =>
    intro i f hf
    cases i with
    | zero => simp [updateAt, hf]
    | succ n => simp [updateAt, ih n f hf]

theorem updateAt_get_self {α : Type} :
    ∀ (l : List α) (i : Nat) (f : α → α),
      (updateAt l i f).get? i = (l.get? i).map f := by
  intro l
  induction l with
  | nil => intro i f; rfl
  | cons a rest ih =>
    intro i f
    cases i with
    | zero => rfl
    | succ n => simp only [updateAt, List.get?_cons_succ]; exact ih n f

theorem updateAt_get_ne {α : Type} :
    ∀ (l : List α) (i j : Nat) (f : α → α), i ≠ j →
      (updateAt l j f).get? i = l.get? i := by
  intro l
  induction l with
  | nil => intro i j f hne; rfl
  | cons a rest ih =>
    intro i j f hne
    cases j with
    | zero =>
      cases i with
      | zero => exact absurd rfl hne
      | succ m => rfl
    | succ n =>
      cases i with
      | zero => rfl
      | succ m => simp only [updateAt, List.get?_cons_succ]; exact ih m n f (by omega)

theorem get_of_map_fst {α β : Type} :
    ∀ (l : List (α × β)) (k : Nat) (o : α), (l.map Prod.fst).get? k = some o →
      ∃ b, l.get? k = some (o, b) := by
  intro l k o h
  rw [List.get?_map] at h
  cases hf : l.get? k with
  | none => rw [hf] at h; simp at h
  | some pr =>
    rw [hf] at h
    cases pr with
    | mk a b =>
      simp only [Option.map_some'] at h
      injection h with h2
      exact ⟨b, by rw [h2]⟩

theorem map_fst_init : ∀ (l : List Ring),
    ((l.map (fun r => (r, ([] : List Ring)))).map Prod.fst) = l := by
  intro l
  induction l with
  | nil => rfl
  | cons a rest ih =>
    simp only [List.map_cons]
    rw [ih]

theorem assignStep_map_fst (outers : List Ring) (feats : List (Ring × List Ring))
    (hole : Ring) :
    (assignStep outers feats hole).map Prod.fst = feats.map Prod.fst := by
  unfold assignStep
  cases holeBestIdx hole outers with
  | none => rfl
  | some b => exact updateAt_map_fst Prod.fst feats b.1 _ (fun x => rfl)

theorem assignFold_map_fst (outers : List Ring) :
    ∀ (holes : List Ring) (feats : List (Ring × List Ring)),
      ((holes.foldl (assignStep outers) feats).map Prod.fst) = feats.map Prod.fst := by
  intro holes
  induction holes with
  | nil => intro feats; rfl
  | cons h rest ih =>
    intro feats
    rw [List.foldl_cons, ih, assignStep_map_fst]

theorem assignFold_get_mono (outers : List Ring) :
    ∀ (holes : List Ring) (feats : List (Ring × List Ring)) (k : Nat) (o : Ring)
      (hs : List Ring), feats.get? k = some (o, hs) →
        ∃ hs2, (holes.foldl (assignStep outers) feats).get? k = some (o, hs ++ hs2) := by
  intro holes
  induction holes with
  | nil => intro feats k o hs h; exact ⟨[], by simpa using h⟩
  | cons hole rest ih =>
    intro feats k o hs h
    rw [List.foldl_cons]
    cases hb : holeBestIdx hole outers with
    | none =>
      have hstep : assignStep outers feats hole = feats := by
        unfold assignStep; rw [hb]
      rw [hstep]
      exact ih feats k o hs h
    | some b =>
      have hstep : assignStep outers feats hole
          = updateAt feats b.1 (fun f => (f.1, f.2 ++ [hole])) := by
        unfold assignStep; rw [hb]
      rw [hstep]
      by_cases hk : b.1 = k
      · subst hk
        have h2 : (updateAt feats b.1 (fun f => (f.1, f.2 ++ [hole]))).get? b.1
            = some (o, hs ++ [hole]) := by
          rw [updateAt_get_self, h]
          rfl
        obtain ⟨hs2, h3⟩ := ih _ b.1 o (hs ++ [hole]) h2
        refine ⟨[hole] ++ hs2, ?_⟩
        rw [h3, List.append_assoc]
      · have h2 : (updateAt feats b.1 (fun f => (f.1, f.2 ++ [hole]))).get? k
            = some (o, hs) := by
          rw [updateAt_get_ne feats k b.1 _ (fun he => hk he.symm)]
          exact h
        exact ih _ k o hs h2

theorem assignHoles_assigns (outers : List Ring) (holes : List Ring) (hole : Ring)
    (hx hy : ℚ) (rest2 : List (ℚ × ℚ)) (hmem : hole ∈ holes)
    (hfirst : hole = (hx, hy) :: rest2)
    (hcont : ∃ o ∈ outers, pointInRing hx hy o = true) :
    ∃ feat ∈ assignHoles outers holes,
      hole ∈ feat.2 ∧ pointInRing hx hy feat.1 = true
      ∧ ∀ o ∈ outers, pointInRing hx hy o = true →
          |ringSignedArea feat.1| ≤ |ringSignedArea o| := by
  obtain ⟨oc, hoc, hpc⟩ := hcont
  have hsome : (holeBestIdx hole outers).isSome = true := by
    rw [hfirst]
    exact holeScan_isSome hx hy outers 0 none (Or.inl ⟨oc, hoc, hpc⟩)
  obtain ⟨ba, hk⟩ := Option.isSome_iff_exists.1 hsome
  obtain ⟨k, a⟩ := ba
  have hscan : holeScan hx hy outers 0 none = some (k, a) := by
    rw [hfirst] at hk
    exact hk
  obtain ⟨j, o, hget, hkj, hpir, ha⟩ :=
    (holeScan_mem hx hy outers 0 none k a hscan).resolve_left (by simp)
  have hle := (holeScan_le hx hy outers 0 none k a hscan).2
  obtain ⟨s, t, hst⟩ := List.append_of_mem hmem
  have hfst : ((s.foldl (assignStep outers)
      (outers.map (fun r => (r, ([] : List Ring))))).map Prod.fst) = outers := by
    rw [assignFold_map_fst]
    exact map_fst_init outers
  have hget_o : ((s.foldl (assignStep outers)
      (outers.map (fun r => (r, ([] : List Ring))))).map Prod.fst).get? k = some o := by
    rw [hfst, hkj]
    simpa using hget
  obtain ⟨hs, hfs⟩ := get_of_map_fst _ k o hget_o
  have hstep : assignStep outers
      (s.foldl (assignStep outers) (outers.map (fun r => (r, ([] : List Ring))))) hole
      = updateAt (s.foldl (assignStep outers)
          (outers.map (fun r => (r, ([] : List Ring))))) k
          (fun f => (f.1, f.2 ++ [hole])) := by
    unfold assignStep
    rw [hk]
  have hupd : (updateAt (s.foldl (assignStep outers)
      (outers.map (fun r => (r, ([] : List Ring))))) k
      (fun f => (f.1, f.2 ++ [hole]))).get? k = some (o, hs ++ [hole]) := by
    rw [updateAt_get_self, hfs]
    rfl
  obtain ⟨hs2, hfinal⟩ := assignFold_get_mono outers t _ k o (hs ++ [hole]) hupd
  have hfold : assignHoles outers holes
      = t.foldl (assignStep outers)
          (updateAt (s.foldl (assignStep outers)
            (outers.map (fun r => (r, ([] : List Ring))))) k
            (fun f => (f.1, f.2 ++ [hole]))) := by
    unfold assignHoles
    rw [hst, List.foldl_append, List.foldl_cons, hstep]
  refine ⟨(o, hs ++ [hole] ++ hs2), ?_, ?_, ?_, ?_⟩
  · rw [hfold]
    exact List.get?_mem hfinal
  · simp
  · exact hpir
  · intro o2 ho2 hp2
    exact ha ▸ hle o2 ho2 hp2

/-- C7: per isoband range, the code classifies rings by the sign of
`ringSignedArea`: outer rings are those with strictly negative signed area and
holes those with NON-NEGATIVE signed area (`>= 0`, so a zero-area ring counts
as a hole, not "positive" as claimed); one polygon feature is emitted per
outer ring, in order; and each hole whose first vertex lies inside at least one
outer ring is attached to a containing outer ring of minimal absolute area. -/
theorem c7_isoband_ring_assignment (polygons : List Ring) :
    (∀ p, p ∈ bandOuterRings polygons ↔ p ∈ polygons ∧ ringSignedArea p < 0)
    ∧ (∀ p, p ∈ bandHoleRings polygons ↔ p ∈ polygons ∧ 0 ≤ ringSignedArea p)
    ∧ (bandFeatures polygons).map Prod.fst = bandOuterRings polygons
    ∧ ∀ hole hx hy rest2, hole ∈ bandHoleRings polygons →
        hole = (hx, hy) :: rest2 →
        (∃ o ∈ bandOuterRings polygons, pointInRing hx hy o = true) →
        ∃ feat ∈ bandFeatures polygons,
          hole ∈ feat.2 ∧ pointInRing hx hy feat.1 = true
          ∧ ∀ o ∈ bandOuterRings polygons, pointInRing hx hy o = true →
              |ringSignedArea feat.1| ≤ |ringSignedArea o| := by
  refine ⟨?_, ?_, ?_, ?_⟩
  · intro p
    simp [bandOuterRings, List.mem_filter]
  · intro p
    simp [bandHoleRings, List.mem_filter]
  · unfold bandFeatures assignHoles
    rw [assignFold_map_fst]
    exact map_fst_init (bandOuterRings polygons)
  · intro hole hx hy rest2 hmem hfirst hcont
    exact assignHoles_assigns (bandOuterRings polygons) (bandHoleRings polygons)
      hole hx hy rest2 hmem hfirst hcont

theorem c7_isoband_ring_assignment_witness :
    ∃ feat ∈ bandFeatures
        [[((0 : ℚ), (0 : ℚ)), (0, 10), (10, 10), (10, 0), (0, 0)],
          [(2, 2), (4, 2), (4, 4), (2, 4), (2, 2)]],
      [((2 : ℚ), (2 : ℚ)), (4, 2), (4, 4), (2, 4), (2, 2)] ∈ feat.2
      ∧ pointInRing 2 2 feat.1 = true := by
  obtain ⟨feat, hfeat, hhole, hpir, -⟩ :=
    (c7_isoband_ring_assignment
        [[((0 : ℚ), (0 : ℚ)), (0, 10), (10, 10), (10, 0), (0, 0)],
          [(2, 2), (4, 2), (4, 4), (2, 4), (2, 2)]]).2.2.2
      [((2 : ℚ), (2 : ℚ)), (4, 2), (4, 4), (2, 4), (2, 2)] 2 2
      [((4 : ℚ), (2 : ℚ)), (4, 4), (2, 4), (2, 2)]
      (of_decide_eq_true (by with_unfolding_all rfl))
      rfl
      ⟨[((0 : ℚ), (0 : ℚ)), (0, 10), (10, 10), (10, 0), (0, 0)],
        of_decide_eq_true (by with_unfolding_all rfl),
        by with_unfolding_all rfl⟩
  exact ⟨feat, hfeat, hhole, hpir⟩

/-- C7 counterexample to the spec's wording: a ring whose signed area is
exactly zero is put in `holeRings` by the code's `>= 0` filter, while the
spec's "positive signed area" classification would exclude it. -/
theorem c7_zero_area_counterexample :
    ringSignedArea [((0 : ℚ), (0 : ℚ)), (1, 0), (0, 0)] = 0
    ∧ bandHoleRings [[((0 : ℚ), (0 : ℚ)), (1, 0), (0, 0)]]
        = [[((0 : ℚ), (0 : ℚ)), (1, 0), (0, 0)]]
    ∧ ([[((0 : ℚ), (0 : ℚ)), (1, 0), (0, 0)]] : List Ring).filter
        (fun p => decide (0 < ringSignedArea p)) = [] := by
  refine ⟨?_, ?_, ?_⟩
  · with_unfolding_all rfl
  · with_unfolding_all rfl
  · with_unfolding_all rfl

end Seamap
